import Mathlib

/- Verification of the JSONL storage engine (src/storage/jsonl.js):
   date-sharded, rotation-aware, lock-protected append log for JSON records.

   Strings are modelled as lists of characters (`Str`).  The filesystem is
   modelled as an association list from file locations to contents, with
   per-path fault injection for the asynchronous `readdir` / `stat` /
   `appendFile` calls.  JavaScript `Date` values are modelled as an optional
   count of milliseconds since the Unix epoch (`none` models an Invalid
   Date, whose calendar fields are NaN); the server is assumed to run in
   the UTC timezone (as in the shipped container), so local-time and UTC
   calendar fields coincide.  Calendar-field extraction follows the
   ECMA-262 style bounded search over year starts and cumulative month
   lengths in the proleptic Gregorian calendar. -/

namespace Telemetry

abbrev Str := List Char

/-- JSON values, the model of the records handled by the storage core.
Numbers are modelled as integers (the storage core never does arithmetic
on them; fractional literals are outside the model). -/
inductive Js where
  | null : Js
  | bool (b : Bool) : Js
  | num (n : Int) : Js
  | str (s : Str) : Js
  | arr (xs : List Js) : Js
  | obj (fields : List (Str × Js)) : Js

mutual
/-- Structural equality test for JSON values. -/
def Js.beq : Js → Js → Bool
  | .null, .null => true
  | .bool a, .bool b => a == b
  | .num a, .num b => a == b
  | .str a, .str b => a == b
  | .arr xs, .arr ys => Js.beqItems xs ys
  | .obj fs, .obj gs => Js.beqFields fs gs
  | _, _ => false

def Js.beqItems : List Js → List Js → Bool
  | [], [] => true
  | x :: xs, y :: ys => Js.beq x y && Js.beqItems xs ys
  | _, _ => false

def Js.beqFields : List (Str × Js) → List (Str × Js) → Bool
  | [], [] => true
  | (k, v) :: fs, (k', v') :: gs => k == k' && Js.beq v v' && Js.beqFields fs gs
  | _, _ => false
end

instance : BEq Js := ⟨Js.beq⟩

/-- JavaScript truthiness of a JSON value (`null`, `false`, `0` and the
empty string are falsy; every array and object is truthy). -/
def truthy : Js → Bool
  | .null => false
  | .bool b => b
  | .num n => n != 0
  | .str s => !s.isEmpty
  | .arr _ => true
  | .obj _ => true

def lookupField : List (Str × Js) → Str → Option Js
  | [], _ => none
  | (k', v) :: rest, k => if k' = k then some v else lookupField rest k

/-- Model of JavaScript property access `record.key` on a parsed object. -/
def getField (v : Js) (k : Str) : Option Js :=
  match v with
  | .obj fs => lookupField fs k
  | _ => none

/-- Number of occurrences of a record in a list (by structural equality). -/
def countOcc (r : Js) : List Js → Nat
  | [] => 0
  | x :: xs => (if Js.beq x r then 1 else 0) + countOcc r xs

def concatMap (f : α → List β) : List α → List β
  | [] => []
  | x :: xs => f x ++ concatMap f xs

/- ---------------------------------------------------------------------
   Decimal rendering of numbers (model of JavaScript Number#toString and
   String#padStart as used by the path construction code).
   --------------------------------------------------------------------- -/

def natDigitsAux : Nat → Nat → Str
  | 0, _ => []
  | fuel+1, n =>
    if n < 10 then [Nat.digitChar n]
    else natDigitsAux fuel (n / 10) ++ [Nat.digitChar (n % 10)]

def natDigits (n : Nat) : Str := natDigitsAux (n + 1) n

/-- Model of JavaScript `Number.prototype.toString` for integral values. -/
def intToString (n : Int) : Str :=
  if n < 0 then '-' :: natDigits (-n).toNat else natDigits n.toNat

/-- Model of `String.prototype.padStart(w, "0")` applied to a rendered
number. -/
def padNum (w : Nat) (n : Int) : Str :=
  List.replicate (w - (intToString n).length) '0' ++ intToString n

def pathJoin (a b : Str) : Str := a ++ '/' :: b

/-- Rendering of the JavaScript NaN calendar fields of an Invalid Date. -/
def nanStr : Str := "NaN".toList

/-- The configured shard filename extension (`config.extension`, default
".jsonl"; the model fixes the default). -/
def jsonlExt : Str := ".jsonl".toList

def tsKey : Str := "timestamp".toList

/- ---------------------------------------------------------------------
   Civil (proleptic Gregorian, UTC) calendar model of JavaScript Date.
   --------------------------------------------------------------------- -/

def msPerDay : Int := 86400000

/-- Epoch day containing the instant `t` (milliseconds since epoch);
integer division here is floor division since the divisor is positive. -/
def epochDay (t : Int) : Int := t / msPerDay

def isLeapB (y : Int) : Bool := (y % 4 == 0 && y % 100 != 0) || y % 400 == 0

/-- Epoch day of 1 January of year `y`: days from 0000-01-01 to y-01-01 in
the proleptic Gregorian calendar, shifted by 719528 (the value at 1970). -/
def yearStart (y : Int) : Int :=
  365*y + (y-1)/4 - (y-1)/100 + (y-1)/400 + 1 - 719528

def monthsOf (leap : Bool) : List Int :=
  [31, if leap then 29 else 28, 31, 30, 31, 30, 31, 31, 30, 31, 30, 31]

/-- Month search over cumulative month lengths (the shape of ECMA-262
`MonthFromTime` / `DateFromTime`): returns (month, day-of-month). -/
def monthSearch : List Int → Int → Int → Int × Int
  | [], m, doy => (m, doy + 1)
  | len :: rest, m, doy =>
    if doy < len then (m, doy + 1) else monthSearch rest (m+1) (doy - len)

/-- Bounded year search (the shape of ECMA-262 `YearFromTime`): advance
while the next year still starts at or before `z`. -/
def findYear : Nat → Int → Int → Int
  | 0, y, _ => y
  | fuel+1, y, z => if yearStart (y+1) ≤ z then findYear fuel (y+1) z else y

/-- Calendar fields (year, month 1-12, day-of-month 1-31) of an epoch
day, as JavaScript `getUTCFullYear` / `getUTCMonth`+1 / `getUTCDate`. -/
def civilFromDays (z : Int) : Int × Int × Int :=
  let era := (z + 719528) / 146097
  let y := findYear 399 (400 * era) z
  let doy := z - yearStart y
  let md := monthSearch (monthsOf (isLeapB y)) 1 doy
  (y, md.1, md.2)

def sumTake (l : List Int) (n : Nat) : Int := (l.take n).sum

/-- Epoch day of the calendar date (y, m, d), as `Date.UTC(y, m-1, d)`
divided into days. -/
def daysFromCivil (y m d : Int) : Int :=
  yearStart y + sumTake (monthsOf (isLeapB y)) (m - 1).toNat + d - 1

/-- A JavaScript Date value: `some t` is the instant `t` ms since the
epoch, `none` is an Invalid Date (time value NaN). -/
abbrev JsDate := Option Int

/-- Model of `date.toISOString().split("T")[0]` (the UTC date key
"YYYY-MM-DD"); years outside 0-9999 use the basic 4-digit padding. -/
def isoDateKey (t : Int) : Str :=
  padNum 4 (civilFromDays (epochDay t)).1 ++
    '-' :: padNum 2 (civilFromDays (epochDay t)).2.1 ++
    '-' :: padNum 2 (civilFromDays (epochDay t)).2.2

def digitVal (c : Char) : Nat := c.toNat - 48

def parseDigitsFixed : Nat → Nat → Str → Option (Nat × Str)
  | 0, acc, s => some (acc, s)
  | k+1, acc, c :: s =>
    if c.isDigit then parseDigitsFixed k (acc * 10 + digitVal c) s else none
  | _+1, _, [] => none

/-- Model of the ISO-8601 subset of JavaScript date-string parsing:
"YYYY-MM-DD" (UTC midnight) or "YYYY-MM-DDTHH:MM:SS(.mmm)?Z".  Strings
outside this subset are modelled as unparseable (Invalid Date); the
month/day range check is the simple 1-12 / 1-31 screen. -/
def parseIsoDate (s : Str) : Option Int := do
  let (y, s1) ← parseDigitsFixed 4 0 s
  match s1 with
  | '-' :: s2 =>
    let (mo, s3) ← parseDigitsFixed 2 0 s2
    match s3 with
    | '-' :: s4 =>
      let (d, s5) ← parseDigitsFixed 2 0 s4
      if 1 ≤ mo ∧ mo ≤ 12 ∧ 1 ≤ d ∧ d ≤ 31 then
        let dayMs := daysFromCivil y mo d * msPerDay
        match s5 with
        | [] => some dayMs
        | 'T' :: s6 =>
          let (hh, s7) ← parseDigitsFixed 2 0 s6
          match s7 with
          | ':' :: s8 =>
            let (mi, s9) ← parseDigitsFixed 2 0 s8
            match s9 with
            | ':' :: s10 =>
              let (ss, s11) ← parseDigitsFixed 2 0 s10
              let (ms, s12) ← (match s11 with
                | '.' :: s' => parseDigitsFixed 3 0 s'
                | _ => some (0, s11))
              if hh ≤ 23 ∧ mi ≤ 59 ∧ ss ≤ 59 ∧ s12 = ['Z'] then
                some (dayMs + ((hh : Int) * 3600000 + (mi : Int) * 60000 +
                  (ss : Int) * 1000 + (ms : Int)))
              else none
            | _ => none
          | _ => none
        | _ => none
      else none
    | _ => none
  | _ => none

/-- Model of `new Date(value)` for the primitive values the storage code
passes it: a number is milliseconds since the epoch, a string is parsed
as an ISO date, a boolean is coerced to 0/1; anything else is modelled
as an Invalid Date. -/
def jsNewDate : Js → JsDate
  | .num n => some n
  | .str s => parseIsoDate s
  | .bool b => some (if b then 1 else 0)
  | _ => none

/- ---------------------------------------------------------------------
   JSON serialization and parsing (model of JSON.stringify / JSON.parse
   restricted to integral numbers and the basic escape sequences).
   --------------------------------------------------------------------- -/

def quoteChar : Char := Char.ofNat 34

def backslashChar : Char := Char.ofNat 92

def lbraceChar : Char := Char.ofNat 123

def rbraceChar : Char := Char.ofNat 125

def isWsChar (c : Char) : Bool := c == ' ' || c == '\n' || c == '\t' || c == '\r'

def skipWs (s : Str) : Str := s.dropWhile isWsChar

def escapeChar (c : Char) : Str :=
  if c = quoteChar then [backslashChar, quoteChar]
  else if c = backslashChar then [backslashChar, backslashChar]
  else if c = '\n' then [backslashChar, 'n']
  else if c = '\t' then [backslashChar, 't']
  else if c = '\r' then [backslashChar, 'r']
  else [c]

def escapeStr : Str → Str
  | [] => []
  | c :: s => escapeChar c ++ escapeStr s

def sepComma : List Str → Str
  | [] => []
  | [x] => x
  | x :: xs => x ++ ',' :: sepComma xs

mutual
/-- Model of `JSON.stringify` (compact form, no spacing). -/
def stringify : Js → Str
  | .null => "null".toList
  | .bool true => "true".toList
  | .bool false => "false".toList
  | .num n => intToString n
  | .str s => quoteChar :: escapeStr s ++ [quoteChar]
  | .arr xs => '[' :: sepComma (stringifyItems xs) ++ [']']
  | .obj fs => lbraceChar :: sepComma (stringifyFields fs) ++ [rbraceChar]

def stringifyItems : List Js → List Str
  | [] => []
  | x :: xs => stringify x :: stringifyItems xs

def stringifyFields : List (Str × Js) → List Str
  | [] => []
  | (k, v) :: fs =>
    (quoteChar :: escapeStr k ++ quoteChar :: ':' :: stringify v) :: stringifyFields fs
end

def unescapeChar (c : Char) : Option Char :=
  if c = quoteChar then some quoteChar
  else if c = backslashChar then some backslashChar
  else if c = '/' then some '/'
  else if c = 'n' then some '\n'
  else if c = 't' then some '\t'
  else if c = 'r' then some '\r'
  else none

def parseStrBody : Str → Option (Str × Str)
  | [] => none
  | c :: rest =>
    if c = quoteChar then some ([], rest)
    else if c = backslashChar then
      match rest with
      | [] => none
      | e :: rest' => do
        let u ← unescapeChar e
        let (s, r) ← parseStrBody rest'
        some (u :: s, r)
    else do
      let (s, r) ← parseStrBody rest
      some (c :: s, r)

def takeDigits (s : Str) : Str := s.takeWhile Char.isDigit

def digitsVal (ds : Str) : Nat := ds.foldl (fun a c => a * 10 + digitVal c) 0

def parseNumTok : Str → Option (Js × Str)
  | '-' :: rest =>
    let ds := takeDigits rest
    if ds.isEmpty then none
    else some (.num (-(digitsVal ds : Int)), rest.drop ds.length)
  | s =>
    let ds := takeDigits s
    if ds.isEmpty then none
    else some (.num (digitsVal ds : Int), s.drop ds.length)

mutual
def parseVal : Nat → Str → Option (Js × Str)
  | 0, _ => none
  | fuel+1, input =>
    match skipWs input with
    | [] => none
    | c :: rest =>
      if c = 'n' then
        match rest with
        | 'u' :: 'l' :: 'l' :: r => some (.null, r)
        | _ => none
      else if c = 't' then
        match rest with
        | 'r' :: 'u' :: 'e' :: r => some (.bool true, r)
        | _ => none
      else if c = 'f' then
        match rest with
        | 'a' :: 'l' :: 's' :: 'e' :: r => some (.bool false, r)
        | _ => none
      else if c = quoteChar then do
        let (s, r) ← parseStrBody rest
        some (.str s, r)
      else if c = '[' then
        match skipWs rest with
        | ']' :: r => some (.arr [], r)
        | r2 => do
          let (xs, r) ← parseItems fuel r2
          some (.arr xs, r)
      else if c = lbraceChar then
        let r2 := skipWs rest
        if r2.head? = some rbraceChar then some (.obj [], r2.tail)
        else do
          let (fs, r) ← parseFields fuel r2
          some (.obj fs, r)
      else parseNumTok (c :: rest)

def parseItems : Nat → Str → Option (List Js × Str)
  | 0, _ => none
  | fuel+1, input => do
    let (v, r1) ← parseVal fuel input
    match skipWs r1 with
    | ',' :: r2 => do
      let (xs, r) ← parseItems fuel r2
      some (v :: xs, r)
    | ']' :: r2 => some ([v], r2)
    | _ => none

def parseFields : Nat → Str → Option (List (Str × Js) × Str)
  | 0, _ => none
  | fuel+1, input =>
    match skipWs input with
    | [] => none
    | c :: rest =>
      if c = quoteChar then do
        let (k, r1) ← parseStrBody rest
        match skipWs r1 with
        | ':' :: r2 => do
          let (v, r3) ← parseVal fuel r2
          match skipWs r3 with
          | ',' :: r4 => do
            let (fs, r) ← parseFields fuel r4
            some ((k, v) :: fs, r)
          | r4 =>
            if r4.head? = some rbraceChar then some ([(k, v)], r4.tail) else none
        | _ => none
      else none
end

/-- Model of `JSON.parse`: parse one value and require only trailing
whitespace after it. -/
def jsonParse (s : Str) : Option Js :=
  match parseVal (s.length + 1) s with
  | some (v, rest) => if (skipWs rest).isEmpty then some v else none
  | none => none

/- ---------------------------------------------------------------------
   Line handling (String#split("\n") and the trim-based blank filter).
   --------------------------------------------------------------------- -/

/-- Model of `content.split("\n")`. -/
def splitNl : Str → List Str
  | [] => [[]]
  | c :: rest =>
    if c = '\n' then [] :: splitNl rest
    else
      match splitNl rest with
      | [] => [[c]]
      | l :: ls => (c :: l) :: ls

/-- Truthiness of `line.trim()`: the line contains a non-whitespace
character. -/
def hasNonWs (l : Str) : Bool := l.any (fun c => !(isWsChar c))

/- ---------------------------------------------------------------------
   The filesystem world.  A file location is a (directory, filename)
   pair; `path.join` concatenates them with "/".  Errors of the
   asynchronous fs calls are injected per path; `fs.existsSync` never
   throws.  Writes are recorded both in the file map and in an append
   event log (one event per `fs.appendFile` call).
   --------------------------------------------------------------------- -/

structure Loc where
  dir : Str
  name : Str
deriving DecidableEq

structure World where
  /-- `config.baseDir` -/
  baseDir : Str
  /-- `config.maxFileSize` (bytes; one character models one byte) -/
  maxFileSize : Nat
  /-- the current clock value used by `new Date()` -/
  now : Int
  /-- file contents by location -/
  fs : List (Loc × Str)
  /-- directories created by `fs.mkdirSync` -/
  dirs : List Str
  /-- the held entries of the `writeLocks` map -/
  locks : List Loc
  /-- injected failure of `readdir(dir)` -/
  readdirErr : Str → Option Str
  /-- injected failure of `stat(path)` -/
  statErr : Loc → Option Str
  /-- injected failure of `appendFile(path, data)` -/
  appendErr : Loc → Option Str
  /-- append event log: one entry per completed `appendFile` call -/
  log : List (Loc × Str)

def fsGet (w : World) (l : Loc) : Option Str :=
  match w.fs.find? (fun e => e.1 == l) with
  | some e => some e.2
  | none => none

def fsAppendEntry : List (Loc × Str) → Loc → Str → List (Loc × Str)
  | [], l, d => [(l, d)]
  | (k, v) :: rest, l, d =>
    if k == l then (k, v ++ d) :: rest else (k, v) :: fsAppendEntry rest l d

/-- Effect of a completed `appendFile(path, data)` call (creates the file
when absent, appends otherwise) together with its log event. -/
def appendData (w : World) (l : Loc) (d : Str) : World :=
  { w with fs := fsAppendEntry w.fs l d, log := w.log ++ [(l, d)] }

/-- `fs.existsSync` on a directory: true when it was created or when some
file lives in it. -/
def dirExistsB (w : World) (dir : Str) : Bool :=
  w.dirs.contains dir || w.fs.any (fun e => e.1.dir == dir)

/-- Result of `readdir(dir)` when it succeeds. -/
def readdirNames (w : World) (dir : Str) : List Str :=
  (w.fs.filter (fun e => e.1.dir == dir)).map (fun e => e.1.name)

/-- `ensureDir`: `mkdirSync` when `existsSync` is false. -/
def ensureDir (w : World) (dir : Str) : World :=
  if dirExistsB w dir then w else { w with dirs := dir :: w.dirs }

/-- Calendar directory of an epoch day: `baseDir/YYYY/MM`. -/
def dirOfDay (w : World) (d : Int) : Str :=
  pathJoin (pathJoin w.baseDir (intToString (civilFromDays d).1))
    (padNum 2 (civilFromDays d).2.1)

/-- Zero-padded day-of-month of an epoch day, the shard base filename. -/
def baseOfDay (d : Int) : Str := padNum 2 (civilFromDays d).2.2

/-- `getDateDirectory(date)`: `baseDir/year/month`; the fields of an
Invalid Date render as "NaN". -/
def getDateDirectory (w : World) : JsDate → Str
  | none => pathJoin (pathJoin w.baseDir nanStr) nanStr
  | some t => dirOfDay w (epochDay t)

def dayBase : JsDate → Str
  | none => nanStr
  | some t => baseOfDay (epochDay t)

/-- `getDateFilename(date)`: `DD.jsonl`. -/
def getDateFilename (d : JsDate) : Str := dayBase d ++ jsonlExt

/-- `getFilePath(date, rotationIndex?)`: inserts `-NNN` (3-digit padded)
before the extension when a rotation index > 0 is given. -/
def getFilePath (w : World) (d : JsDate) (rotationIndex : Option Nat) : Loc :=
  match rotationIndex with
  | some ri =>
    if 0 < ri then ⟨getDateDirectory w d, dayBase d ++ '-' :: padNum 3 ri ++ jsonlExt⟩
    else ⟨getDateDirectory w d, getDateFilename d⟩
  | none => ⟨getDateDirectory w d, getDateFilename d⟩

def stripFront : Str → Str → Option Str
  | [], s => some s
  | _ :: _, [] => none
  | c :: cs, x :: xs => if c = x then stripFront cs xs else none

/-- Model of the shard regex `^{base}(-\d{3})?\{ext}$`: `none` for no
match, `some none` for the unsuffixed base file, `some (some i)` for a
3-digit rotation suffix with value `i` (its `parseInt`). -/
def matchShard (base : Str) (name : Str) : Option (Option Nat) :=
  match stripFront base name with
  | none => none
  | some rest =>
    if rest = jsonlExt then some none
    else
      match rest with
      | '-' :: a :: b :: c :: tail =>
        if a.isDigit && b.isDigit && c.isDigit && tail = jsonlExt then
          some (some (digitVal a * 100 + digitVal b * 10 + digitVal c))
        else none
      | _ => none

/-- `getCurrentRotationIndex(date)`: 0 when the directory does not exist,
otherwise the maximum 3-digit suffix among files matching the shard
pattern (0 when none carries a suffix); `readdir` failures propagate. -/
def getCurrentRotationIndex (w : World) (d : JsDate) : Except Str Nat :=
  let dir := getDateDirectory w d
  if dirExistsB w dir then
    match w.readdirErr dir with
    | some e => .error e
    | none =>
      .ok ((readdirNames w dir).foldl (fun mx f =>
        match matchShard (dayBase d) f with
        | some (some i) => max mx i
        | _ => mx) 0)
  else .ok 0

/-- `needsRotation(filePath)`: false when the file does not exist,
otherwise whether its size reached `config.maxFileSize`; `stat` failures
propagate. -/
def needsRotation (w : World) (l : Loc) : Except Str Bool :=
  match fsGet w l with
  | none => .ok false
  | some content =>
    match w.statErr l with
    | some e => .error e
    | none => .ok (decide (w.maxFileSize ≤ content.length))

/-- `getWriteFilePath(date)`: ensure the directory, take the current
rotation index (`idx || undefined` turns 0 into no suffix), and advance
by one when the resolved shard needs rotation.  The returned world
records the `ensureDir` effect; `readdir`/`stat` failures propagate. -/
def getWriteFilePath (w : World) (d : JsDate) : World × Except Str Loc :=
  let dir := getDateDirectory w d
  let w1 := ensureDir w dir
  match getCurrentRotationIndex w1 d with
  | .error e => (w1, .error e)
  | .ok ri =>
    let l := getFilePath w1 d (if ri = 0 then none else some ri)
    match needsRotation w1 l with
    | .error e => (w1, .error e)
    | .ok true => (w1, .ok (getFilePath w1 d (some (ri+1))))
    | .ok false => (w1, .ok l)

/-- `releaseLock`: delete the lock entry. -/
def releaseLock (w : World) (l : Loc) : World := { w with locks := w.locks.erase l }

structure AppendResult where
  filePath : Loc
  success : Bool
  error : Option Str
deriving DecidableEq

/-- Outcome of running one storage operation to completion in isolation:
a returned value, a rejected promise, or `blocked` when `acquireLock`
would poll forever because the lock is already held. -/
inductive Res (α : Type) where
  | ok (w : World) (val : α)
  | raised (w : World) (msg : Str)
  | blocked (w : World)

def Res.isRaised {α} : Res α → Bool
  | .raised _ _ => true
  | _ => false

def Res.value {α} : Res α → Option α
  | .ok _ v => some v
  | _ => none

def Res.world {α} : Res α → Option World
  | .ok w _ => some w
  | _ => none

/-- The date used by `appendStatement`: the explicit argument, else
`new Date(statement.timestamp)` when that field is truthy, else the
current time. -/
def resolveDate (w : World) (stmt : Js) : JsDate :=
  match getField stmt tsKey with
  | some tv => if truthy tv then jsNewDate tv else some w.now
  | none => some w.now

/-- `appendStatement(statement, date?)`: resolve the write path (failures
here propagate — the call sits before the try block), acquire the lock,
append one serialized line, return success or failure as data, release
the lock on either path. -/
def appendStatement (w : World) (stmt : Js) (date : Option JsDate) : Res AppendResult :=
  let ts : JsDate := match date with
    | some d => d
    | none => resolveDate w stmt
  match getWriteFilePath w ts with
  | (w1, .error e) => .raised w1 e
  | (w1, .ok l) =>
    if l ∈ w1.locks then .blocked w1
    else
      let w2 := { w1 with locks := l :: w1.locks }
      match w2.appendErr l with
      | some msg => .ok (releaseLock w2 l) ⟨l, false, some msg⟩
      | none =>
        let line := stringify stmt ++ ['\n']
        .ok (releaseLock (appendData w2 l line) l) ⟨l, true, none⟩

structure BatchResult where
  total : Nat
  success : Nat
  failed : Nat
  errors : List Str
deriving DecidableEq

structure Group where
  key : Str
  date : JsDate
  stmts : List Js

def addToGroups : List Group → Str → JsDate → Js → List Group
  | [], k, d, s => [⟨k, d, [s]⟩]
  | g :: gs, k, d, s =>
    if g.key = k then { g with stmts := g.stmts ++ [s] } :: gs
    else g :: addToGroups gs k d s

/-- The grouping loop of `appendStatements`: per statement, derive its
date (`timestamp` when truthy, else now) and its UTC date key via
`toISOString` — which throws a RangeError on an Invalid Date, rejecting
the whole call.  The JS `Map` keeps key insertion order and the first
statement's date as the group date. -/
def buildGroups (w : World) : List Js → List Group → Except Str (List Group)
  | [], acc => .ok acc
  | s :: rest, acc =>
    let ts : JsDate := match getField s tsKey with
      | some tv => if truthy tv then jsNewDate tv else some w.now
      | none => some w.now
    match ts with
    | none => .error "Invalid time value".toList
    | some t => buildGroups w rest (addToGroups acc (isoDateKey t) (some t) s)

/-- One line per statement, joined by newline, with a trailing newline. -/
def joinedLines (stmts : List Js) : Str := sepComma' (stmts.map stringify) ++ ['\n']
where sepComma' : List Str → Str
  | [] => []
  | [x] => x
  | x :: xs => x ++ '\n' :: sepComma' xs

/-- The write loop of `appendStatements`: per date group, resolve the
path (failures propagate), lock, append the group's combined lines in
one call, account success/failure per group, release the lock. -/
def writeGroups (w : World) (acc : BatchResult) : List Group → Res BatchResult
  | [] => .ok w acc
  | g :: rest =>
    match getWriteFilePath w g.date with
    | (w1, .error e) => .raised w1 e
    | (w1, .ok l) =>
      if l ∈ w1.locks then .blocked w1
      else
        let w2 := { w1 with locks := l :: w1.locks }
        match w2.appendErr l with
        | some msg =>
          writeGroups (releaseLock w2 l)
            { acc with failed := acc.failed + g.stmts.length,
                       errors := acc.errors ++ [g.key ++ ':' :: ' ' :: msg] } rest
        | none =>
          writeGroups (releaseLock (appendData w2 l (joinedLines g.stmts)) l)
            { acc with success := acc.success + g.stmts.length } rest

/-- `appendStatements(statements)`. -/
def appendStatements (w : World) (stmts : List Js) : Res BatchResult :=
  match buildGroups w stmts [] with
  | .error e => .raised w e
  | .ok groups => writeGroups w ⟨stmts.length, 0, 0, []⟩ groups

/-- One line of `readStatements`: `JSON.parse` it (`null` on failure) and
keep the value only when truthy (`filter(Boolean)`). -/
def parseLine (l : Str) : Option Js :=
  match jsonParse l with
  | some v => if truthy v then some v else none
  | none => none

/-- The record list extracted from a file content. -/
def parsedRecords (content : Str) : List Js :=
  ((splitNl content).filter hasNonWs).filterMap parseLine

/-- `readStatements(filePath)`: empty when the file does not exist, else
split into lines, drop blank lines, parse each line, drop failures and
falsy values. -/
def readStatements (w : World) (l : Loc) : List Js :=
  match fsGet w l with
  | none => []
  | some content => parsedRecords content

/-- End instant of the calendar day of `e` (`setHours(23,59,59,999)` in
the UTC model). -/
def endOfDayMs (e : Int) : Int := epochDay e * msPerDay + 86399999

/-- The per-record filter of `readStatementsInRange`: a record with a
truthy `timestamp` passes when `new Date(timestamp)` lands in
`[startDate, endOfDay endDate]` (an Invalid Date fails both compares);
records without a truthy `timestamp` pass unconditionally. -/
def emitFilter (s endMs : Int) (r : Js) : Bool :=
  match getField r tsKey with
  | some tv =>
    if truthy tv then
      match jsNewDate tv with
      | some t => decide (s ≤ t) && decide (t ≤ endMs)
      | none => false
    else true
  | none => true

def lexLt : Str → Str → Bool
  | [], [] => false
  | [], _ :: _ => true
  | _ :: _, [] => false
  | x :: xs, y :: ys => if x = y then lexLt xs ys else decide (x < y)

def insertStr (x : Str) : List Str → List Str
  | [] => [x]
  | y :: ys => if lexLt x y then x :: y :: ys else y :: insertStr x ys

/-- Model of `Array.prototype.sort()` on the matched shard names
(lexicographic by code unit). -/
def sortStrs : List Str → List Str
  | [] => []
  | x :: xs => insertStr x (sortStrs xs)

/-- One iteration of the day loop of `readStatementsInRange`: list the
day's directory (skip when absent; `readdir` failures reject the
generator), keep and sort the names matching the shard pattern, read
each shard and yield its records through the timestamp filter. -/
def scanDay (w : World) (s endMs : Int) (d : Int) : Except Str (List Js) :=
  let dir := dirOfDay w d
  if dirExistsB w dir then
    match w.readdirErr dir with
    | some e => .error e
    | none =>
      let matching :=
        sortStrs ((readdirNames w dir).filter (fun f => (matchShard (baseOfDay d) f).isSome))
      .ok (concatMap (fun f => (readStatements w ⟨dir, f⟩).filter (emitFilter s endMs)) matching)
  else .ok []

def scanDays (w : World) (s endMs : Int) : List Int → Except Str (List Js)
  | [] => .ok []
  | d :: rest => do
    let xs ← scanDay w s endMs d
    let ys ← scanDays w s endMs rest
    .ok (xs ++ ys)

/-- The inclusive day range iterated by the scan loop. -/
def dayList (dS dE : Int) : List Int :=
  (List.range (dE - dS + 1).toNat).map (fun i : Nat => dS + (i : Int))

/-- `readStatementsInRange(startDate, endDate)`, collected into a list.
The loop runs `current` from the start of `startDate`'s day to the end
of `endDate`'s day one day at a time; with an Invalid Date on either
side the loop condition is a NaN comparison and nothing is yielded. -/
def readStatementsInRange (w : World) (startD endD : JsDate) : Except Str (List Js) :=
  match startD, endD with
  | some s, some e => scanDays w s (endOfDayMs e) (dayList (epochDay s) (epochDay e))
  | _, _ => .ok []

def exceptList (r : Except Str (List Js)) : List Js :=
  match r with
  | .ok l => l
  | .error _ => []

/-- The content ends with a newline (or is empty): every line previously
appended through this storage core leaves the file in this state. -/
def endsWithNl (l : Str) : Bool :=
  match l.getLast? with
  | some c => c = '\n'
  | none => true

/-- The statement's date resolution cannot produce an Invalid Date: its
`timestamp` field, when truthy, parses to a time value. -/
def tsOk (s : Js) : Bool :=
  match getField s tsKey with
  | some tv => !truthy tv || (jsNewDate tv).isSome
  | none => true

/-- Rotation index denoted by a matching shard filename (0 for the
unsuffixed base file), `none` for a non-matching name. -/
def shardIdx (base : Str) (f : Str) : Option Nat :=
  match matchShard base f with
  | some (some i) => some i
  | some none => some 0
  | none => none

/- ---------------------------------------------------------------------
   Interleaving model of two concurrent appends that resolved to the
   same shard path.  The event loop runs each task's code atomically
   between `await` points: `acquireLock`'s read-check and write of the
   `writeLocks` entry have no `await` between them, so acquisition is a
   single atomic step; the polling wait is the self-delaying retry of
   that step.  The backing `appendFile` may deliver its buffer to the
   file in several chunks, so a task's write phase is one step per
   chunk — mutual exclusion, not step atomicity, is what keeps chunks
   of the two appends from interleaving.
   --------------------------------------------------------------------- -/

inductive TaskPc where
  | acquire : TaskPc
  | write (k : Nat) : TaskPc
  | release : TaskPc
  | done : TaskPc
deriving DecidableEq

structure LockState where
  /-- the `writeLocks` entry for the shared path -/
  locked : Bool
  /-- chunks appended to the shard so far -/
  content : List Str
  /-- order in which the tasks acquired the lock (true = first task) -/
  acqLog : List Bool
  pcA : TaskPc
  pcB : TaskPc

/-- Interleaved small-step semantics of the two append tasks; `ca` and
`cb` are the chunk lists of the two writes. -/
inductive LockStep (ca cb : List Str) : LockState → LockState → Prop where
  | acqA (s : LockState) (h : s.pcA = .acquire) (hl : s.locked = false) :
      LockStep ca cb s
        { s with locked := true, pcA := .write 0, acqLog := s.acqLog ++ [true] }
  | wrA (s : LockState) (k : Nat) (h : s.pcA = .write k) (hk : k < ca.length) :
      LockStep ca cb s
        { s with content := s.content ++ [ca.get ⟨k, hk⟩], pcA := .write (k+1) }
  | wrEndA (s : LockState) (k : Nat) (h : s.pcA = .write k) (hk : ¬ k < ca.length) :
      LockStep ca cb s { s with pcA := .release }
  | relA (s : LockState) (h : s.pcA = .release) :
      LockStep ca cb s { s with locked := false, pcA := .done }
  | acqB (s : LockState) (h : s.pcB = .acquire) (hl : s.locked = false) :
      LockStep ca cb s
        { s with locked := true, pcB := .write 0, acqLog := s.acqLog ++ [false] }
  | wrB (s : LockState) (k : Nat) (h : s.pcB = .write k) (hk : k < cb.length) :
      LockStep ca cb s
        { s with content := s.content ++ [cb.get ⟨k, hk⟩], pcB := .write (k+1) }
  | wrEndB (s : LockState) (k : Nat) (h : s.pcB = .write k) (hk : ¬ k < cb.length) :
      LockStep ca cb s { s with pcB := .release }
  | relB (s : LockState) (h : s.pcB = .release) :
      LockStep ca cb s { s with locked := false, pcB := .done }

def lockInit : LockState := ⟨false, [], [], .acquire, .acquire⟩

def holding : TaskPc → Bool
  | .write _ => true
  | .release => true
  | _ => false

def started : TaskPc → Bool
  | .acquire => false
  | _ => true

/-- Chunks a task has delivered so far. -/
def writtenOf (c : List Str) : TaskPc → List Str
  | .acquire => []
  | .write k => c.take k
  | .release => c
  | .done => c

/-- Inductive invariant of the two-task lock protocol. -/
def lockInv (ca cb : List Str) (s : LockState) : Prop :=
  s.locked = (holding s.pcA || holding s.pcB) ∧
  ¬(holding s.pcA = true ∧ holding s.pcB = true) ∧
  ((started s.pcB = false ∧ s.content = writtenOf ca s.pcA ∧
      s.acqLog = (if started s.pcA then [true] else [])) ∨
   (started s.pcA = false ∧ s.content = writtenOf cb s.pcB ∧
      s.acqLog = (if started s.pcB then [false] else [])) ∨
   (s.pcA = .done ∧ started s.pcB = true ∧
      s.content = ca ++ writtenOf cb s.pcB ∧ s.acqLog = [true, false]) ∨
   (s.pcB = .done ∧ started s.pcA = true ∧
      s.content = cb ++ writtenOf ca s.pcA ∧ s.acqLog = [false, true]))

/- ---------------------------------------------------------------------
   Further small helpers and concrete test fixtures used by witnesses
   and counterexamples.
   --------------------------------------------------------------------- -/

def isObj : Js → Bool
  | .obj _ => true
  | _ => false

/-- The non-blank lines of a content. -/
def linesOf (content : Str) : List Str := (splitNl content).filter hasNonWs

/-- Size reported by `stat` for a shard, `none` when it does not exist. -/
def shardSize (w : World) (l : Loc) : Option Nat := (fsGet w l).map List.length

/-- A clean world: empty store, no injected failures, clock at epoch. -/
def w0 : World :=
  ⟨"b".toList, 1000000, 0, [], [], [], fun _ => none, fun _ => none, fun _ => none, []⟩

/-- A record with a numeric timestamp 10 ms after the epoch (day 0). -/
def recNum : Js := Js.obj [(tsKey, Js.num 10)]

/-- The shard directory of epoch day 0 under `w0`. -/
def day0dir : Str := pathJoin (pathJoin "b".toList (intToString 1970)) (padNum 2 1)

/-- World whose day-0 directory exists but whose `readdir` fails on it. -/
def wRd : World :=
  { w0 with dirs := [day0dir],
            readdirErr := fun d => if d = day0dir then some "EACCES".toList else none }

/-- World in which every `appendFile` fails. -/
def wErrAll : World := { w0 with appendErr := fun _ => some "EIO".toList }

/-- World with a base shard and one rotated shard for epoch day 0. -/
def wC8 : World :=
  { w0 with fs := [(⟨day0dir, "01.jsonl".toList⟩, "x".toList),
                   (⟨day0dir, "01-002.jsonl".toList⟩, "y".toList)] }

/-- Fixture for the C6 witness: one malformed line followed by one record
line. -/
def contentC6 : Str := "oops".toList ++ '\n' :: (stringify recNum ++ ['\n'])

def locC6 : Loc := ⟨"d".toList, "f".toList⟩

def wC6 : World := { w0 with fs := [(locC6, contentC6)] }

/-- Fixture for the C10 witness: the four falsy JSON texts as lines,
followed by one record line. -/
def contentC10 : Str :=
  "null".toList ++ '\n' :: ("false".toList ++ '\n' :: ("0".toList ++ '\n' ::
    (quoteChar :: quoteChar :: '\n' :: (stringify recNum ++ ['\n']))))

def wC10 : World := { w0 with fs := [(locC6, contentC10)] }

/-- Fixture for C1: the day-0 base shard holds one record with timestamp
10 ms after the epoch. -/
def wC1 : World :=
  { w0 with fs := [(⟨day0dir, "01.jsonl".toList⟩, stringify recNum ++ ['\n'])] }

/-- Fixture for the C2 counterexample: the day-0 shard of rotation index
999 already reached the size threshold, so the next write rotates to
index 1000 — whose filename escapes the 3-digit shard pattern. -/
def w999 : World :=
  { w0 with maxFileSize := 1,
            fs := [(⟨day0dir, "01-999.jsonl".toList⟩, "x".toList)] }

/-- The value computed by the rotation-index fold. -/
def rotFold (base : Str) (files : List Str) : Nat :=
  files.foldl (fun mx f =>
    match matchShard base f with
    | some (some i) => max mx i
    | _ => mx) 0

/-- Number of statements of the groups whose resolved shard accepts the
append, reading the per-path failure table `ae` against the resolved
location of each group. -/
def groupsSuccCount (ae : Loc → Option Str) : List Group → List Loc → Nat
  | g :: gs, l :: ls =>
    (match ae l with
     | some _ => 0
     | none => g.stmts.length) + groupsSuccCount ae gs ls
  | _, _ => 0

/-- Number of statements of the groups whose resolved shard rejects the
append. -/
def groupsFailCount (ae : Loc → Option Str) : List Group → List Loc → Nat
  | g :: gs, l :: ls =>
    (match ae l with
     | some _ => g.stmts.length
     | none => 0) + groupsFailCount ae gs ls
  | _, _ => 0

/-- One `dateKey: message` entry per failed group, in group order. -/
def groupsErrors (ae : Loc → Option Str) : List Group → List Loc → List Str
  | g :: gs, l :: ls =>
    (match ae l with
     | some m => [g.key ++ ':' :: ' ' :: m]
     | none => []) ++ groupsErrors ae gs ls
  | _, _ => []

/-- One combined append event per successful group, in group order. -/
def groupsLog (ae : Loc → Option Str) : List Group → List Loc → List (Loc × Str)
  | g :: gs, l :: ls =>
    (match ae l with
     | some _ => []
     | none => [(l, joinedLines g.stmts)]) ++ groupsLog ae gs ls
  | _, _ => []

/- =====================================================================
   Theorems.  First the generic lemma library (structural equality,
   counting, permutation and calendar facts), then one theorem per
   specification claim with its witness or counterexample.
   ===================================================================== -/

mutual
theorem Js.beq_iff : ∀ a b : Js, Js.beq a b = true ↔ a = b
  | .null, .null => by simp [Js.beq]
  | .bool a, .bool b => by simp [Js.beq]
  | .num a, .num b => by simp [Js.beq]
  | .str a, .str b => by simp [Js.beq]
  | .arr xs, .arr ys => by simp [Js.beq, Js.beqItems_iff xs ys]
  | .obj fs, .obj gs => by simp [Js.beq, Js.beqFields_iff fs gs]
  | .null, .bool _ | .null, .num _ | .null, .str _ | .null, .arr _ | .null, .obj _ => by
      simp [Js.beq]
  | .bool _, .null | .bool _, .num _ | .bool _, .str _ | .bool _, .arr _ | .bool _, .obj _ => by
      simp [Js.beq]
  | .num _, .null | .num _, .bool _ | .num _, .str _ | .num _, .arr _ | .num _, .obj _ => by
      simp [Js.beq]
  | .str _, .null | .str _, .bool _ | .str _, .num _ | .str _, .arr _ | .str _, .obj _ => by
      simp [Js.beq]
  | .arr _, .null | .arr _, .bool _ | .arr _, .num _ | .arr _, .str _ | .arr _, .obj _ => by
      simp [Js.beq]
  | .obj _, .null | .obj _, .bool _ | .obj _, .num _ | .obj _, .str _ | .obj _, .arr _ => by
      simp [Js.beq]

theorem Js.beqItems_iff : ∀ xs ys : List Js, Js.beqItems xs ys = true ↔ xs = ys
  | [], [] => by simp [Js.beqItems]
  | x :: xs, y :: ys => by simp [Js.beqItems, Js.beq_iff x y, Js.beqItems_iff xs ys]
  | [], _ :: _ => by simp [Js.beqItems]
  | _ :: _, [] => by simp [Js.beqItems]

theorem Js.beqFields_iff : ∀ fs gs : List (Str × Js), Js.beqFields fs gs = true ↔ fs = gs
  | [], [] => by simp [Js.beqFields]
  | (k, v) :: fs, (k', v') :: gs => by
      simp [Js.beqFields, Js.beq_iff v v', Js.beqFields_iff fs gs, and_assoc]
  | [], _ :: _ => by simp [Js.beqFields]
  | _ :: _, [] => by simp [Js.beqFields]
end

theorem Js.beq_refl (a : Js) : Js.beq a a = true := (Js.beq_iff a a).2 rfl

theorem countOcc_append (r : Js) (xs ys : List Js) :
    countOcc r (xs ++ ys) = countOcc r xs + countOcc r ys := by
  induction xs with
  | nil => simp [countOcc]
  | cons x xs ih => simp [countOcc, ih]; omega

theorem countOcc_concatMap (r : Js) (f : α → List Js) (l : List α) :
    countOcc r (concatMap f l) = (l.map (fun x => countOcc r (f x))).sum := by
  induction l with
  | nil => simp [concatMap, countOcc]
  | cons x xs ih => simp [concatMap, countOcc_append, ih]

theorem mem_concatMap (b : β) (f : α → List β) (l : List α) :
    b ∈ concatMap f l ↔ ∃ a ∈ l, b ∈ f a := by
  induction l with
  | nil => simp [concatMap]
  | cons x xs ih =>
    simp only [concatMap, List.mem_append, ih, List.mem_cons]
    constructor
    · rintro (hb | ⟨a, ha, hb⟩)
      · exact ⟨x, Or.inl rfl, hb⟩
      · exact ⟨a, Or.inr ha, hb⟩
    · rintro ⟨a, (rfl | ha), hb⟩
      · exact Or.inl hb
      · exact Or.inr ⟨a, ha, hb⟩

theorem insertStr_perm (x : Str) (l : List Str) : (insertStr x l).Perm (x :: l) := by
  induction l with
  | nil => simp [insertStr]
  | cons y ys ih =>
    rw [insertStr]
    by_cases h : lexLt x y
    · simp [h]
    · simp only [h, if_false]
      exact (List.Perm.cons y ih).trans (List.Perm.swap x y ys)

theorem sortStrs_perm (l : List Str) : (sortStrs l).Perm l := by
  induction l with
  | nil => simp [sortStrs]
  | cons x xs ih => exact (insertStr_perm x (sortStrs xs)).trans (List.Perm.cons x ih)

theorem mem_sortStrs (x : Str) (l : List Str) : x ∈ sortStrs l ↔ x ∈ l :=
  (sortStrs_perm l).mem_iff

/- Calendar lemmas: the searched year/month decomposition is the inverse
   of `daysFromCivil`, hence `civilFromDays` is injective, and its month
   and day components stay in range. -/

theorem eraStart_le (z : Int) :
    yearStart (400 * ((z + 719528) / 146097)) ≤ z ∧
      z < yearStart (400 * ((z + 719528) / 146097) + 400) := by
  unfold yearStart
  omega

theorem findYear_spec : ∀ (fuel : Nat) (y z : Int), yearStart y ≤ z →
    z < yearStart (y + fuel + 1) →
    yearStart (findYear fuel y z) ≤ z ∧ z < yearStart (findYear fuel y z + 1) := by
  intro fuel
  induction fuel with
  | zero => intro y z h1 h2; simpa [findYear] using ⟨h1, by simpa using h2⟩
  | succ n ih =>
    intro y z h1 h2
    rw [findYear]
    by_cases h : yearStart (y+1) ≤ z
    · simp only [h, if_true]
      refine ih (y+1) z h ?_
      have harg : y + 1 + (n : Int) + 1 = y + ((n : Int) + 1) + 1 := by ring
      rw [harg]
      simpa using h2
    · simp only [h, if_false]
      exact ⟨h1, by omega⟩

theorem monthSearch_sum : ∀ (l : List Int) (m0 doy : Int),
    sumTake l ((monthSearch l m0 doy).1 - m0).toNat + (monthSearch l m0 doy).2 - 1 = doy ∧
      m0 ≤ (monthSearch l m0 doy).1 := by
  intro l
  induction l with
  | nil => intro m0 doy; simp [monthSearch, sumTake]
  | cons len rest ih =>
    intro m0 doy
    rw [monthSearch]
    by_cases h : doy < len
    · simp only [h, if_true]
      constructor
      · simp [sumTake]
      · omega
    · simp only [h, if_false]
      have := ih (m0 + 1) (doy - len)
      constructor
      · have hm : ((monthSearch rest (m0+1) (doy - len)).1 - m0).toNat
            = ((monthSearch rest (m0+1) (doy - len)).1 - (m0+1)).toNat + 1 := by omega
        rw [hm]
        simp only [sumTake, List.take_succ_cons, List.sum_cons] at *
        omega
      · omega

theorem civil_roundtrip (z : Int) :
    daysFromCivil (civilFromDays z).1 (civilFromDays z).2.1 (civilFromDays z).2.2 = z := by
  unfold civilFromDays daysFromCivil
  simp only
  obtain ⟨h1, h2⟩ := eraStart_le z
  obtain ⟨h3, h4⟩ := findYear_spec 399 (400 * ((z + 719528) / 146097)) z h1
    (by have harg : 400 * ((z + 719528) / 146097) + (399 : Nat) + 1
          = 400 * ((z + 719528) / 146097) + 400 := by push_cast; ring
        rw [harg]; exact h2)
  set y := findYear 399 (400 * ((z + 719528) / 146097)) z with hy
  obtain ⟨h5, h6⟩ := monthSearch_sum (monthsOf (isLeapB y)) 1 (z - yearStart y)
  omega

theorem civilFromDays_inj (a b : Int) (h : civilFromDays a = civilFromDays b) : a = b := by
  have ha := civil_roundtrip a
  have hb := civil_roundtrip b
  rw [h] at ha
  omega

theorem yearLen (y : Int) :
    yearStart (y + 1) - yearStart y = if isLeapB y then 366 else 365 := by
  unfold yearStart isLeapB
  by_cases h4 : y % 4 = 0 <;> by_cases h100 : y % 100 = 0 <;> by_cases h400 : y % 400 = 0 <;>
    simp [h4, h100, h400] <;> omega

theorem monthSearch_bounds : ∀ (l : List Int) (m0 doy : Int), 0 ≤ doy → doy < l.sum →
    (∀ x ∈ l, x ≤ 31) →
    (monthSearch l m0 doy).1 < m0 + l.length ∧ 1 ≤ (monthSearch l m0 doy).2 ∧
      (monthSearch l m0 doy).2 ≤ 31 := by
  intro l
  induction l with
  | nil => intro m0 doy h1 h2 h3; simp at h2; omega
  | cons len rest ih =>
    intro m0 doy h1 h2 h3
    rw [monthSearch]
    by_cases h : doy < len
    · simp only [h, if_true, List.length_cons]
      have h31 : len ≤ 31 := h3 len (by simp)
      omega
    · simp only [h, if_false, List.length_cons]
      have := ih (m0+1) (doy - len) (by omega) (by simp at h2; omega)
        (fun x hx => h3 x (by simp [hx]))
      omega

theorem civil_month_day_bounds (z : Int) :
    1 ≤ (civilFromDays z).2.1 ∧ (civilFromDays z).2.1 ≤ 12 ∧
      1 ≤ (civilFromDays z).2.2 ∧ (civilFromDays z).2.2 ≤ 31 := by
  unfold civilFromDays
  simp only
  obtain ⟨h1, h2⟩ := eraStart_le z
  obtain ⟨h3, h4⟩ := findYear_spec 399 (400 * ((z + 719528) / 146097)) z h1
    (by have harg : 400 * ((z + 719528) / 146097) + (399 : Nat) + 1
          = 400 * ((z + 719528) / 146097) + 400 := by push_cast; ring
        rw [harg]; exact h2)
  set y := findYear 399 (400 * ((z + 719528) / 146097)) z with hy
  have hlen := yearLen y
  have hsum : (monthsOf (isLeapB y)).sum = if isLeapB y then 366 else 365 := by
    cases h : isLeapB y <;> simp [monthsOf, h]
  have hbd := monthSearch_bounds (monthsOf (isLeapB y)) 1 (z - yearStart y) (by omega)
    (by rw [hsum]; cases hL : isLeapB y <;> simp [hL] at hlen ⊢ <;> omega)
    (by intro x hx; cases h : isLeapB y <;> rw [h] at hx <;> simp [monthsOf] at hx <;> omega)
  have hlen12 : (monthsOf (isLeapB y)).length = 12 := by
    cases h : isLeapB y <;> simp [monthsOf]
  rw [hlen12] at hbd
  obtain ⟨hsm, _⟩ := monthSearch_sum (monthsOf (isLeapB y)) 1 (z - yearStart y)
  exact ⟨by omega, by omega, by omega, by omega⟩

/- Decimal rendering: digits, lengths, injectivity. -/

theorem digitChar_isDigit : ∀ m : Nat, m < 10 → (Nat.digitChar m).isDigit = true := by decide

theorem digitChar_inj : ∀ a : Nat, a < 10 → ∀ b : Nat, b < 10 →
    Nat.digitChar a = Nat.digitChar b → a = b := by decide

theorem digitChar_ne_zero : ∀ m : Nat, 1 ≤ m → m < 10 → Nat.digitChar m ≠ '0' := by decide

theorem digitVal_digitChar : ∀ m : Nat, m < 10 → digitVal (Nat.digitChar m) = m := by decide

theorem natDigitsAux_fuel : ∀ (f1 f2 n : Nat), n < f1 → n < f2 →
    natDigitsAux f1 n = natDigitsAux f2 n := by
  intro f1
  induction f1 with
  | zero => intro f2 n h1; omega
  | succ g ih =>
    intro f2 n h1 h2
    cases f2 with
    | zero => omega
    | succ g2 =>
      rw [natDigitsAux, natDigitsAux]
      by_cases hn : n < 10
      · rw [if_pos hn, if_pos hn]
      · rw [if_neg hn, if_neg hn, ih g2 (n / 10) (by omega) (by omega)]

theorem natDigits_eq (n : Nat) : natDigits n
    = if n < 10 then [Nat.digitChar n] else natDigits (n / 10) ++ [Nat.digitChar (n % 10)] := by
  unfold natDigits
  rw [natDigitsAux]
  by_cases hn : n < 10
  · rw [if_pos hn, if_pos hn]
  · rw [if_neg hn, if_neg hn,
      natDigitsAux_fuel n (n / 10 + 1) (n / 10) (by omega) (by omega)]

theorem natDigits_ne_nil (n : Nat) : natDigits n ≠ [] := by
  rw [natDigits_eq]
  split <;> simp

theorem natDigits_isDigit (n : Nat) : ∀ c ∈ natDigits n, c.isDigit = true := by
  induction n using Nat.strong_induction_on with
  | _ n ih =>
    rw [natDigits_eq]
    split
    · intro c hc
      simp at hc
      subst hc
      exact digitChar_isDigit n (by omega)
    · intro c hc
      simp at hc
      rcases hc with hc | hc
      · exact ih (n / 10) (Nat.div_lt_self (by omega) (by omega)) c hc
      · subst hc
        exact digitChar_isDigit (n % 10) (Nat.mod_lt _ (by omega))

theorem natDigits_small (n : Nat) (h : n < 10) : natDigits n = [Nat.digitChar n] := by
  rw [natDigits_eq]
  simp [h]

theorem natDigits_big (n : Nat) (h : ¬ n < 10) :
    natDigits n = natDigits (n / 10) ++ [Nat.digitChar (n % 10)] := by
  conv_lhs => rw [natDigits_eq]
  simp [h]

theorem natDigits_len_one (n : Nat) (h : n < 10) : (natDigits n).length = 1 := by
  simp [natDigits_small n h]

theorem natDigits_len_two (n : Nat) (h1 : 10 ≤ n) (h2 : n < 100) :
    (natDigits n).length = 2 := by
  rw [natDigits_big n (by omega)]
  have : n / 10 < 10 := by omega
  simp [natDigits_small _ this]

theorem natDigits_inj (a : Nat) : ∀ b : Nat, natDigits a = natDigits b → a = b := by
  induction a using Nat.strong_induction_on with
  | _ a ih =>
    intro b h
    by_cases ha : a < 10 <;> by_cases hb : b < 10
    · rw [natDigits_small a ha, natDigits_small b hb] at h
      simp at h
      exact digitChar_inj a ha b hb h
    · exfalso
      rw [natDigits_small a ha, natDigits_big b hb] at h
      have hlen : ([Nat.digitChar a]).length
          = (natDigits (b / 10) ++ [Nat.digitChar (b % 10)]).length := by rw [h]
      rw [List.length_append] at hlen
      simp only [List.length_cons, List.length_nil] at hlen
      have hpos : 0 < (natDigits (b / 10)).length :=
        List.length_pos.mpr (natDigits_ne_nil (b / 10))
      omega
    · exfalso
      rw [natDigits_big a ha, natDigits_small b hb] at h
      have hlen : (natDigits (a / 10) ++ [Nat.digitChar (a % 10)]).length
          = ([Nat.digitChar b]).length := by rw [h]
      rw [List.length_append] at hlen
      simp only [List.length_cons, List.length_nil] at hlen
      have hpos : 0 < (natDigits (a / 10)).length :=
        List.length_pos.mpr (natDigits_ne_nil (a / 10))
      omega
    · rw [natDigits_big a ha, natDigits_big b hb] at h
      have h2 := List.append_inj' h (by simp)
      obtain ⟨hq, hr⟩ := h2
      simp at hr
      have hq' := ih (a / 10) (Nat.div_lt_self (by omega) (by omega)) (b / 10) hq
      have hr' := digitChar_inj (a % 10) (Nat.mod_lt _ (by omega)) (b % 10)
        (Nat.mod_lt _ (by omega)) hr
      omega

theorem intToString_inj (a b : Int) (h : intToString a = intToString b) : a = b := by
  unfold intToString at h
  by_cases ha : a < 0 <;> by_cases hb : b < 0 <;> simp [ha, hb] at h
  · have := natDigits_inj (-a).toNat (-b).toNat h
    omega
  · exfalso
    have hm : '-' ∈ natDigits b.toNat := by
      rw [← h]
      exact List.mem_cons_self _ _
    exact absurd (natDigits_isDigit b.toNat '-' hm) (by decide)
  · exfalso
    have hm : '-' ∈ natDigits a.toNat := by
      rw [h]
      exact List.mem_cons_self _ _
    exact absurd (natDigits_isDigit a.toNat '-' hm) (by decide)
  · have := natDigits_inj a.toNat b.toNat h
    omega

theorem no_slash_intToString (n : Int) : '/' ∉ intToString n := by
  intro hmem
  unfold intToString at hmem
  split at hmem
  · rcases List.mem_cons.1 hmem with h1 | h1
    · exact absurd h1 (by decide)
    · exact absurd (natDigits_isDigit _ '/' h1) (by decide)
  · exact absurd (natDigits_isDigit _ '/' hmem) (by decide)

theorem no_slash_padNum (w : Nat) (n : Int) : '/' ∉ padNum w n := by
  intro hmem
  unfold padNum at hmem
  rcases List.mem_append.1 hmem with h1 | h1
  · exact absurd (List.eq_of_mem_replicate h1) (by decide)
  · exact no_slash_intToString n h1

/-- Length of the 2-padded rendering of a value in [1, 99]. -/
theorem padNum_two_len (n : Int) (h1 : 1 ≤ n) (h2 : n ≤ 99) : (padNum 2 n).length = 2 := by
  unfold padNum intToString
  have hneg : ¬ n < 0 := by omega
  simp only [hneg, if_false]
  by_cases hn : n.toNat < 10
  · rw [natDigits_small _ hn]
    simp
  · rw [List.length_append, natDigits_len_two n.toNat (by omega) (by omega)]
    simp

theorem padNum_two_inj (a b : Int) (ha1 : 1 ≤ a) (ha2 : a ≤ 99) (hb1 : 1 ≤ b)
    (hb2 : b ≤ 99) (h : padNum 2 a = padNum 2 b) : a = b := by
  unfold padNum intToString at h
  have hnega : ¬ a < 0 := by omega
  have hnegb : ¬ b < 0 := by omega
  simp only [hnega, hnegb, if_false] at h
  by_cases hsa : a.toNat < 10 <;> by_cases hsb : b.toNat < 10
  · rw [natDigits_small _ hsa, natDigits_small _ hsb] at h
    simp at h
    have := digitChar_inj a.toNat hsa b.toNat hsb (by tauto)
    omega
  · rw [natDigits_small _ hsa, natDigits_big _ hsb,
      natDigits_small (b.toNat / 10) (by omega)] at h
    have hlen1 : (natDigits a.toNat).length = 1 := natDigits_len_one _ hsa
    simp [natDigits_small _ hsa] at h
    exfalso
    exact digitChar_ne_zero (b.toNat / 10) (by omega) (by omega) (by tauto)
  · rw [natDigits_big _ hsa, natDigits_small _ hsb,
      natDigits_small (a.toNat / 10) (by omega)] at h
    simp [natDigits_small _ hsb] at h
    exfalso
    exact digitChar_ne_zero (a.toNat / 10) (by omega) (by omega) (by tauto)
  · rw [natDigits_big _ hsa, natDigits_big _ hsb,
      natDigits_small (a.toNat / 10) (by omega), natDigits_small (b.toNat / 10) (by omega)] at h
    simp at h
    obtain ⟨h1, h2⟩ := h
    have e1 := digitChar_inj (a.toNat / 10) (by omega) (b.toNat / 10) (by omega) h1
    have e2 := digitChar_inj (a.toNat % 10) (by omega) (b.toNat % 10) (by omega) h2
    omega

/- Path decomposition: appending a slash-free component after "/" is
   injective, from either side. -/

theorem append_slash_inj : ∀ a b c d : Str, '/' ∉ a → '/' ∉ b →
    a ++ '/' :: c = b ++ '/' :: d → a = b ∧ c = d := by
  intro a
  induction a with
  | nil =>
    intro b c d _ hb h
    cases b with
    | nil => simpa using h
    | cons x xs =>
      simp at h
      exfalso
      exact hb (h.1 ▸ List.mem_cons_self x xs)
  | cons x xs ih =>
    intro b c d ha hb h
    cases b with
    | nil =>
      simp at h
      exfalso
      exact ha (h.1 ▸ List.mem_cons_self x xs)
    | cons y ys =>
      simp at h
      obtain ⟨hxy, hrest⟩ := h
      have := ih ys c d (fun hm => ha (List.mem_cons_of_mem x hm))
        (fun hm => hb (List.mem_cons_of_mem y hm)) hrest
      exact ⟨by simp [hxy, this.1], this.2⟩

theorem append_slash_inj_right (a b c d : Str) (hc : '/' ∉ c) (hd : '/' ∉ d)
    (h : a ++ '/' :: c = b ++ '/' :: d) : a = b ∧ c = d := by
  have hrev : c.reverse ++ '/' :: a.reverse = d.reverse ++ '/' :: b.reverse := by
    have := congrArg List.reverse h
    simpa [List.reverse_append] using this
  have := append_slash_inj c.reverse d.reverse a.reverse b.reverse
    (by simpa using hc) (by simpa using hd) hrev
  constructor
  · have := this.2
    simpa using congrArg List.reverse this
  · have := this.1
    simpa using congrArg List.reverse this

/-- Distinct epoch days have distinct (directory, base filename) pairs. -/
theorem dirOfDay_baseOfDay_inj (w : World) (d1 d2 : Int)
    (hdir : dirOfDay w d1 = dirOfDay w d2) (hbase : baseOfDay d1 = baseOfDay d2) :
    d1 = d2 := by
  unfold dirOfDay pathJoin at hdir
  have houter := append_slash_inj_right _ _ _ _
    (no_slash_padNum 2 (civilFromDays d1).2.1) (no_slash_padNum 2 (civilFromDays d2).2.1)
    hdir
  have hinner := append_slash_inj_right _ _ _ _
    (no_slash_intToString (civilFromDays d1).1) (no_slash_intToString (civilFromDays d2).1)
    houter.1
  have hb1 := civil_month_day_bounds d1
  have hb2 := civil_month_day_bounds d2
  have hy : (civilFromDays d1).1 = (civilFromDays d2).1 := intToString_inj _ _ hinner.2
  have hm : (civilFromDays d1).2.1 = (civilFromDays d2).2.1 :=
    padNum_two_inj _ _ (by omega) (by omega) (by omega) (by omega) houter.2
  have hd : (civilFromDays d1).2.2 = (civilFromDays d2).2.2 := by
    unfold baseOfDay at hbase
    exact padNum_two_inj _ _ (by omega) (by omega) (by omega) (by omega) hbase
  exact civilFromDays_inj d1 d2 (by
    have e1 : civilFromDays d1 = ((civilFromDays d1).1, (civilFromDays d1).2.1,
      (civilFromDays d1).2.2) := rfl
    have e2 : civilFromDays d2 = ((civilFromDays d2).1, (civilFromDays d2).2.1,
      (civilFromDays d2).2.2) := rfl
    rw [e1, e2, hy, hm, hd])

/- Line splitting: appending to a newline-terminated content extends the
   line list, and appending one newline-terminated line adds one line. -/

theorem splitNl_ne_nil (a : Str) : splitNl a ≠ [] := by
  induction a with
  | nil => simp [splitNl]
  | cons c rest ih =>
    rw [splitNl]
    split
    · simp
    · cases hn : splitNl rest with
      | nil => exact absurd hn ih
      | cons l ls => simp

theorem splitNl_no_nl (u : Str) (h : '\n' ∉ u) : splitNl u = [u] := by
  induction u with
  | nil => rfl
  | cons c rest ih =>
    rw [splitNl]
    have hc : ¬ c = '\n' := fun hh => h (hh ▸ List.mem_cons_self c rest)
    simp only [hc, if_false]
    rw [ih (fun hm => h (List.mem_cons_of_mem c hm))]

theorem splitNl_line (u v : Str) (h : '\n' ∉ u) :
    splitNl (u ++ '\n' :: v) = u :: splitNl v := by
  induction u with
  | nil => simp [splitNl]
  | cons c rest ih =>
    have hc : ¬ c = '\n' := fun hh => h (hh ▸ List.mem_cons_self c rest)
    rw [List.cons_append, splitNl]
    simp only [hc, if_false]
    rw [ih (fun hm => h (List.mem_cons_of_mem c hm))]

theorem splitNl_single_nil (a : Str) (h : splitNl a = [[]]) : a = [] := by
  cases a with
  | nil => rfl
  | cons c rest =>
    rw [splitNl] at h
    split at h
    · exfalso
      have := splitNl_ne_nil rest
      simp at h
      exact this h
    · cases hn : splitNl rest with
      | nil => exact absurd hn (splitNl_ne_nil rest)
      | cons l ls => rw [hn] at h; simp at h

theorem endsWithNl_cons (c : Char) (rest : Str) (h : rest ≠ []) :
    endsWithNl (c :: rest) = endsWithNl rest := by
  unfold endsWithNl
  cases rest with
  | nil => exact absurd rfl h
  | cons x xs => rw [List.getLast?_cons_cons]

theorem splitNl_append_endsNl : ∀ (a b : Str), endsWithNl a = true →
    splitNl (a ++ b) = (splitNl a).dropLast ++ splitNl b := by
  intro a
  induction a with
  | nil => intro b _; simp [splitNl]
  | cons c rest ih =>
    intro b hends
    by_cases hr : rest = []
    · subst hr
      unfold endsWithNl at hends
      simp at hends
      subst hends
      simp [splitNl]
    · rw [endsWithNl_cons c rest hr] at hends
      have hsplit : splitNl rest = (splitNl rest).dropLast ++ [[]] := by
        have := ih [] hends
        simpa [splitNl] using this
      by_cases hc : c = '\n'
      · subst hc
        have lhs : splitNl ('\n' :: (rest ++ b)) = [] :: splitNl (rest ++ b) := by
          rw [splitNl]; simp
        have rhs : splitNl ('\n' :: rest) = [] :: splitNl rest := by
          rw [splitNl]; simp
        rw [List.cons_append, lhs, ih b hends, rhs,
          List.dropLast_cons_of_ne_nil (splitNl_ne_nil rest)]
        simp
      · cases hD : (splitNl rest).dropLast with
        | nil =>
          exfalso
          rw [hD] at hsplit
          exact hr (splitNl_single_nil rest (by simpa using hsplit))
        | cons d0 ds =>
          rw [List.cons_append, splitNl]
          simp only [hc, if_false]
          rw [ih b hends, hD, List.cons_append]
          rw [splitNl]
          simp only [hc, if_false]
          rw [hsplit, hD]
          have hgoal : splitNl (c :: rest) = (c :: d0) :: (ds ++ [[]]) := by
            rw [splitNl]
            simp only [hc, if_false]
            rw [hsplit, hD]
            simp
          rw [List.cons_append]
          have hdrop : ((c :: d0) :: (ds ++ [[]])).dropLast = (c :: d0) :: ds := by
            rw [List.dropLast_cons_of_ne_nil (by simp)]
            have : ds ++ [[]] = ds ++ [([] : Str)] := rfl
            rw [this, List.dropLast_concat]
          rw [hdrop]
          simp

theorem filter_hasNonWs_dropLast (a : Str) (h : endsWithNl a = true) :
    (splitNl a).filter hasNonWs = ((splitNl a).dropLast).filter hasNonWs := by
  by_cases ha : a = []
  · subst ha
    simp [splitNl, hasNonWs]
  · have hsplit : splitNl a = (splitNl a).dropLast ++ [[]] := by
      have := splitNl_append_endsNl a [] h
      simpa [splitNl] using this
    conv_lhs => rw [hsplit]
    rw [List.filter_append]
    simp [hasNonWs]

/-- Appending to newline-terminated (or empty) content concatenates the
parsed record lists. -/
theorem parsedRecords_append (a b : Str) (h : endsWithNl a = true) :
    parsedRecords (a ++ b) = parsedRecords a ++ parsedRecords b := by
  unfold parsedRecords
  rw [splitNl_append_endsNl a b h, List.filter_append, List.filterMap_append,
    filter_hasNonWs_dropLast a h]

/-- A single serialized line parses back to exactly its record. -/
theorem parsedRecords_line (r : Js) (hnl : '\n' ∉ stringify r)
    (hws : hasNonWs (stringify r) = true) (hparse : jsonParse (stringify r) = some r)
    (htr : truthy r = true) :
    parsedRecords (stringify r ++ ['\n']) = [r] := by
  unfold parsedRecords
  rw [splitNl_line (stringify r) [] hnl]
  have : splitNl [] = [[]] := rfl
  rw [this]
  have hfil : ([stringify r, []] : List Str).filter hasNonWs = [stringify r] := by
    simp [List.filter_cons, hws, show hasNonWs ([] : Str) = false from rfl]
  rw [hfil]
  simp [List.filterMap, parseLine, hparse, htr]

/- World-operation lemmas: effect of one append on the file map, the
   directory listings and the directory-existence checks.  Proved at the
   level of the underlying association list first. -/

theorem fsAppendEntry_find_self : ∀ (fs : List (Loc × Str)) (l : Loc) (d : Str),
    (fsAppendEntry fs l d).find? (fun e => e.1 == l)
      = some (l, (((fs.find? (fun e => e.1 == l)).map Prod.snd).getD []) ++ d) := by
  intro fs l d
  induction fs with
  | nil =>
    rw [fsAppendEntry, List.find?_cons_of_pos _ (by simp)]
    simp [List.find?]
  | cons e rest ih =>
    obtain ⟨k, v⟩ := e
    rw [fsAppendEntry]
    by_cases h : k = l
    · subst h
      rw [if_pos (by simp), List.find?_cons_of_pos _ (by simp),
        List.find?_cons_of_pos _ (by simp)]
      simp
    · rw [if_neg (by simp [h]), List.find?_cons_of_neg _ (by simp [h]),
        List.find?_cons_of_neg _ (by simp [h])]
      exact ih

theorem fsAppendEntry_find_other : ∀ (fs : List (Loc × Str)) (l k : Loc) (d : Str),
    k ≠ l →
    (fsAppendEntry fs l d).find? (fun e => e.1 == k) = fs.find? (fun e => e.1 == k) := by
  intro fs l k d hne
  induction fs with
  | nil =>
    have hlk : ¬ l = k := fun hh => hne hh.symm
    rw [fsAppendEntry, List.find?_cons_of_neg _ (by simp [hlk])]
  | cons e rest ih =>
    obtain ⟨k', v⟩ := e
    rw [fsAppendEntry]
    by_cases h : k' = l
    · subst h
      have hne2 : ¬ k' = k := fun hh => hne hh.symm
      rw [if_pos (by simp), List.find?_cons_of_neg _ (by simp [hne2]),
        List.find?_cons_of_neg _ (by simp [hne2])]
    · rw [if_neg (by simp [h])]
      by_cases hc : k' = k
      · subst hc
        rw [List.find?_cons_of_pos _ (by simp), List.find?_cons_of_pos _ (by simp)]
      · rw [List.find?_cons_of_neg _ (by simp [hc]), List.find?_cons_of_neg _ (by simp [hc])]
        exact ih

theorem fsAppendEntry_names_present : ∀ (fs : List (Loc × Str)) (l : Loc) (d : Str),
    (fs.find? (fun e => e.1 == l)).isSome = true → ∀ dir,
    ((fsAppendEntry fs l d).filter (fun e => e.1.dir == dir)).map (fun e => e.1.name)
      = (fs.filter (fun e => e.1.dir == dir)).map (fun e => e.1.name) := by
  intro fs l d
  induction fs with
  | nil => intro h; simp [List.find?] at h
  | cons e rest ih =>
    obtain ⟨k, v⟩ := e
    intro h dir
    rw [fsAppendEntry]
    by_cases hk : k = l
    · subst hk
      rw [if_pos (by simp), List.filter_cons, List.filter_cons]
      by_cases hc : (k.dir == dir) = true
      · rw [if_pos hc, if_pos hc]
        simp
      · rw [if_neg hc, if_neg hc]
    · rw [if_neg (by simp [hk])]
      rw [List.find?_cons_of_neg _ (by simp [hk])] at h
      rw [List.filter_cons, List.filter_cons]
      by_cases hc : (k.dir == dir) = true
      · rw [if_pos hc, if_pos hc]
        simp [ih h dir]
      · rw [if_neg hc, if_neg hc]
        exact ih h dir

theorem fsAppendEntry_names_absent : ∀ (fs : List (Loc × Str)) (l : Loc) (d : Str),
    fs.find? (fun e => e.1 == l) = none → ∀ dir,
    ((fsAppendEntry fs l d).filter (fun e => e.1.dir == dir)).map (fun e => e.1.name)
      = (fs.filter (fun e => e.1.dir == dir)).map (fun e => e.1.name)
        ++ (if l.dir = dir then [l.name] else []) := by
  intro fs l d
  induction fs with
  | nil =>
    intro _ dir
    rw [fsAppendEntry, List.filter_cons]
    by_cases hd : l.dir = dir
    · rw [if_pos (by simp [hd]), if_pos hd]
      simp
    · rw [if_neg (by simp [hd]), if_neg hd]
      simp
  | cons e rest ih =>
    obtain ⟨k, v⟩ := e
    intro h dir
    by_cases hk : k = l
    · subst hk
      rw [List.find?_cons_of_pos _ (by simp)] at h
      simp at h
    · rw [List.find?_cons_of_neg _ (by simp [hk])] at h
      rw [fsAppendEntry, if_neg (by simp [hk]), List.filter_cons, List.filter_cons]
      by_cases hc : (k.dir == dir) = true
      · rw [if_pos hc, if_pos hc]
        simp [ih h dir]
      · rw [if_neg hc, if_neg hc]
        exact ih h dir

theorem fsAppendEntry_any_dir : ∀ (fs : List (Loc × Str)) (l : Loc) (d : Str) (dir : Str),
    (fsAppendEntry fs l d).any (fun e => e.1.dir == dir)
      = (fs.any (fun e => e.1.dir == dir) || (l.dir == dir)) := by
  intro fs l d dir
  induction fs with
  | nil => simp [fsAppendEntry]
  | cons e rest ih =>
    obtain ⟨k, v⟩ := e
    rw [fsAppendEntry]
    by_cases hk : k = l
    · subst hk
      rw [if_pos (by simp), List.any_cons, List.any_cons]
      cases hc : (k.dir == dir) <;> simp [hc]
    · rw [if_neg (by simp [hk]), List.any_cons, List.any_cons, ih]
      cases hc : (k.dir == dir) <;> simp [hc, Bool.or_assoc]

theorem find_none_name_not_mem : ∀ (fs : List (Loc × Str)) (l : Loc),
    fs.find? (fun e => e.1 == l) = none →
    l.name ∉ (fs.filter (fun e => e.1.dir == l.dir)).map (fun e => e.1.name) := by
  intro fs l
  induction fs with
  | nil => intro _; simp
  | cons e rest ih =>
    obtain ⟨k, v⟩ := e
    intro h
    by_cases hk : k = l
    · subst hk
      rw [List.find?_cons_of_pos _ (by simp)] at h
      simp at h
    · rw [List.find?_cons_of_neg _ (by simp [hk])] at h
      rw [List.filter_cons]
      by_cases hc : (k.dir == l.dir) = true
      · rw [if_pos hc]
        simp only [List.map_cons]
        intro hmem
        rcases List.mem_cons.1 hmem with h1 | h1
        · apply hk
          have hdir : k.dir = l.dir := by simpa using hc
          have hk2 : k = ⟨k.dir, k.name⟩ := rfl
          have hl2 : l = ⟨l.dir, l.name⟩ := rfl
          rw [hk2, hl2, hdir, h1]
        · exact ih h h1
      · rw [if_neg hc]
        exact ih h

theorem keys_nodup_names_nodup : ∀ (fs : List (Loc × Str)) (dir : Str),
    (fs.map Prod.fst).Nodup →
    ((fs.filter (fun e => e.1.dir == dir)).map (fun e => e.1.name)).Nodup := by
  intro fs dir
  induction fs with
  | nil => intro _; simp
  | cons e rest ih =>
    obtain ⟨k, v⟩ := e
    intro h
    rw [List.map_cons, List.nodup_cons] at h
    rw [List.filter_cons]
    by_cases hc : (k.dir == dir) = true
    · rw [if_pos hc]
      simp only [List.map_cons, List.nodup_cons]
      refine ⟨?_, ih h.2⟩
      intro hmem
      rcases List.mem_map.1 hmem with ⟨e2, he2, hname⟩
      rcases List.mem_filter.1 he2 with ⟨he2m, he2d⟩
      apply h.1
      have hkeq : e2.1 = (k, v).1 := by
        have hd1 : k.dir = dir := by simpa using hc
        have hd2 : e2.1.dir = dir := by simpa using he2d
        have h3 : e2.1 = ⟨e2.1.dir, e2.1.name⟩ := rfl
        have h4 : (k, v).1 = ⟨k.dir, k.name⟩ := rfl
        rw [h3, h4, hd1, hd2, hname]
      exact hkeq ▸ List.mem_map.2 ⟨e2, he2m, rfl⟩
    · rw [if_neg hc]
      exact ih h.2

/- World-level corollaries. -/

theorem appendData_fields (w : World) (l : Loc) (d : Str) :
    (appendData w l d).baseDir = w.baseDir ∧ (appendData w l d).maxFileSize = w.maxFileSize ∧
    (appendData w l d).now = w.now ∧ (appendData w l d).dirs = w.dirs ∧
    (appendData w l d).locks = w.locks ∧ (appendData w l d).readdirErr = w.readdirErr ∧
    (appendData w l d).statErr = w.statErr ∧ (appendData w l d).appendErr = w.appendErr :=
  ⟨rfl, rfl, rfl, rfl, rfl, rfl, rfl, rfl⟩

theorem ensureDir_fields (w : World) (dir : Str) :
    (ensureDir w dir).baseDir = w.baseDir ∧ (ensureDir w dir).maxFileSize = w.maxFileSize ∧
    (ensureDir w dir).now = w.now ∧ (ensureDir w dir).fs = w.fs ∧
    (ensureDir w dir).locks = w.locks ∧ (ensureDir w dir).readdirErr = w.readdirErr ∧
    (ensureDir w dir).statErr = w.statErr ∧ (ensureDir w dir).appendErr = w.appendErr ∧
    (ensureDir w dir).log = w.log := by
  unfold ensureDir
  split <;> exact ⟨rfl, rfl, rfl, rfl, rfl, rfl, rfl, rfl, rfl⟩

theorem fsGet_congr (w1 w2 : World) (l : Loc) (h : w1.fs = w2.fs) :
    fsGet w1 l = fsGet w2 l := by
  unfold fsGet
  rw [h]

theorem readdirNames_congr (w1 w2 : World) (dir : Str) (h : w1.fs = w2.fs) :
    readdirNames w1 dir = readdirNames w2 dir := by
  unfold readdirNames
  rw [h]

theorem dirOfDay_congr (w1 w2 : World) (d : Int) (h : w1.baseDir = w2.baseDir) :
    dirOfDay w1 d = dirOfDay w2 d := by
  unfold dirOfDay
  rw [h]

theorem getDateDirectory_congr (w1 w2 : World) (d : JsDate) (h : w1.baseDir = w2.baseDir) :
    getDateDirectory w1 d = getDateDirectory w2 d := by
  unfold getDateDirectory
  cases d with
  | none => unfold pathJoin; rw [h]
  | some t => exact dirOfDay_congr w1 w2 (epochDay t) h

theorem fsGet_appendData_self (w : World) (l : Loc) (d : Str) :
    fsGet (appendData w l d) l = some ((fsGet w l).getD [] ++ d) := by
  unfold fsGet appendData
  simp only
  rw [fsAppendEntry_find_self]
  cases h : w.fs.find? (fun e => e.1 == l) <;> simp [h]

theorem fsGet_appendData_other (w : World) (l k : Loc) (d : Str) (h : k ≠ l) :
    fsGet (appendData w l d) k = fsGet w k := by
  unfold fsGet appendData
  simp only
  rw [fsAppendEntry_find_other w.fs l k d h]

theorem readdirNames_appendData_present (w : World) (l : Loc) (d : Str)
    (h : (fsGet w l).isSome = true) (dir : Str) :
    readdirNames (appendData w l d) dir = readdirNames w dir := by
  unfold readdirNames appendData
  simp only
  apply fsAppendEntry_names_present
  unfold fsGet at h
  cases hf : w.fs.find? (fun e => e.1 == l) <;> simp [hf] at h ⊢

theorem readdirNames_appendData_absent (w : World) (l : Loc) (d : Str)
    (h : fsGet w l = none) (dir : Str) :
    readdirNames (appendData w l d) dir
      = readdirNames w dir ++ (if l.dir = dir then [l.name] else []) := by
  unfold readdirNames appendData
  simp only
  apply fsAppendEntry_names_absent
  unfold fsGet at h
  cases hf : w.fs.find? (fun e => e.1 == l) <;> simp [hf] at h ⊢

theorem dirExistsB_appendData (w : World) (l : Loc) (d : Str) (dir : Str) :
    dirExistsB (appendData w l d) dir = (dirExistsB w dir || (l.dir == dir)) := by
  unfold dirExistsB appendData
  simp only
  rw [fsAppendEntry_any_dir]
  cases h1 : w.dirs.contains dir <;>
    cases h2 : w.fs.any (fun e => e.1.dir == dir) <;>
    cases h3 : (l.dir == dir) <;> simp [h1, h2, h3]

theorem name_not_mem_of_fsGet_none (w : World) (l : Loc) (h : fsGet w l = none) :
    l.name ∉ readdirNames w l.dir := by
  unfold readdirNames
  apply find_none_name_not_mem
  unfold fsGet at h
  cases hf : w.fs.find? (fun e => e.1 == l) <;> simp [hf] at h ⊢

theorem readdirNames_nodup (w : World) (dir : Str) (h : (w.fs.map Prod.fst).Nodup) :
    (readdirNames w dir).Nodup :=
  keys_nodup_names_nodup w.fs dir h

theorem dirExistsB_of_mem_readdirNames (w : World) (dir f : Str)
    (h : f ∈ readdirNames w dir) : dirExistsB w dir = true := by
  unfold readdirNames at h
  unfold dirExistsB
  rcases List.mem_map.1 h with ⟨e, he, -⟩
  rcases List.mem_filter.1 he with ⟨he1, he2⟩
  refine Bool.or_eq_true_iff.2 (Or.inr ?_)
  exact List.any_eq_true.2 ⟨e, he1, he2⟩

/- The scan layer: with no injected readdir failures every day scan
   succeeds, and membership in a day's yield is membership in some
   matching shard filtered by the timestamp window. -/

theorem scanDay_no_err (w : World) (s e d : Int)
    (hrd : w.readdirErr (dirOfDay w d) = none) :
    ∃ out, scanDay w s e d = Except.ok out := by
  unfold scanDay
  by_cases hex : dirExistsB w (dirOfDay w d) = true
  · rw [if_pos hex, hrd]
    exact ⟨_, rfl⟩
  · rw [if_neg hex]
    exact ⟨[], rfl⟩

theorem scanDays_ok (w : World) (s e : Int) (hrd : ∀ dir, w.readdirErr dir = none) :
    ∀ ds, scanDays w s e ds = .ok (concatMap (fun d => exceptList (scanDay w s e d)) ds) := by
  intro ds
  induction ds with
  | nil => rfl
  | cons d rest ih =>
    obtain ⟨out, hout⟩ := scanDay_no_err w s e d (hrd _)
    rw [scanDays, hout, ih]
    simp only [bind, Except.bind, exceptList, concatMap]
    rw [hout]

theorem mem_dayList (a b d : Int) : d ∈ dayList a b ↔ a ≤ d ∧ d ≤ b := by
  unfold dayList
  simp only [List.mem_map, List.mem_range]
  constructor
  · rintro ⟨i, hi, rfl⟩
    omega
  · rintro ⟨h1, h2⟩
    exact ⟨(d - a).toNat, by omega, by omega⟩

theorem dayList_nodup (a b : Int) : (dayList a b).Nodup := by
  unfold dayList
  refine List.Nodup.map ?_ (List.nodup_range _)
  intro x y h
  have h' : a + (x : Int) = a + (y : Int) := h
  omega

theorem mem_scanDay (w : World) (s e d : Int) (r : Js)
    (hrd : w.readdirErr (dirOfDay w d) = none) :
    r ∈ exceptList (scanDay w s e d) ↔
      ∃ f, f ∈ readdirNames w (dirOfDay w d) ∧ (matchShard (baseOfDay d) f).isSome = true ∧
        r ∈ readStatements w ⟨dirOfDay w d, f⟩ ∧ emitFilter s e r = true := by
  unfold scanDay
  by_cases hex : dirExistsB w (dirOfDay w d) = true
  · rw [if_pos hex, hrd]
    simp only [exceptList]
    rw [mem_concatMap]
    constructor
    · rintro ⟨f, hf, hr⟩
      rw [mem_sortStrs] at hf
      rcases List.mem_filter.1 hf with ⟨hf1, hf2⟩
      rcases List.mem_filter.1 hr with ⟨hr1, hr2⟩
      exact ⟨f, hf1, hf2, hr1, hr2⟩
    · rintro ⟨f, h1, h2, h3, h4⟩
      refine ⟨f, ?_, ?_⟩
      · rw [mem_sortStrs]
        exact List.mem_filter.2 ⟨h1, h2⟩
      · exact List.mem_filter.2 ⟨h3, h4⟩
  · rw [if_neg hex]
    simp only [exceptList]
    constructor
    · intro h
      exact absurd h (List.not_mem_nil r)
    · rintro ⟨f, h1, -, -, -⟩
      exact absurd (dirExistsB_of_mem_readdirNames w _ f h1) hex

theorem sum_ite_not_mem (days : List Int) (rd : Int) (h : rd ∉ days) :
    (days.map (fun d => if d = rd then (1:Nat) else 0)).sum = 0 := by
  induction days with
  | nil => rfl
  | cons d rest ih =>
    have hd : ¬ d = rd := fun hh => h (hh ▸ List.mem_cons_self d rest)
    rw [List.map_cons, List.sum_cons, if_neg hd, ih (fun hm => h (List.mem_cons_of_mem d hm))]

theorem sum_ite_mem (days : List Int) (rd : Int) (hmem : rd ∈ days) (hnd : days.Nodup) :
    (days.map (fun d => if d = rd then (1:Nat) else 0)).sum = 1 := by
  induction days with
  | nil => exact absurd hmem (List.not_mem_nil rd)
  | cons d rest ih =>
    rw [List.nodup_cons] at hnd
    rcases List.mem_cons.1 hmem with rfl | hm
    · rw [List.map_cons, List.sum_cons, if_pos rfl, sum_ite_not_mem rest _ hnd.1]
    · have hd : ¬ d = rd := fun hh => hnd.1 (hh ▸ hm)
      rw [List.map_cons, List.sum_cons, if_neg hd, ih hm hnd.2]

/- ---------------------------------------------------------------------
   Claim C6 — readStatements: missing file is empty, parse failures are
   silently dropped.
   --------------------------------------------------------------------- -/

theorem isObj_truthy (v : Js) (h : isObj v = true) : truthy v = true := by
  cases v with
  | obj fields => rfl
  | null => simp [isObj] at h
  | bool b => simp [isObj] at h
  | num n => simp [isObj] at h
  | str s => simp [isObj] at h
  | arr xs => simp [isObj] at h

/-- Claim C6: readStatements returns an empty sequence (not an error) when
the file does not exist; when it exists it returns the records parsed
from its non-blank lines — here stated for files whose parseable lines
are all records (objects), the values this store holds — with every line
that fails to parse silently discarded: the result is exactly the
line-wise `JSON.parse` survivors, with no error and no discard count
surfaced (the return type carries records only). -/
theorem c6_readStatements_missing_and_drop (w : World) (l : Loc) :
    (fsGet w l = none → readStatements w l = []) ∧
    (∀ content, fsGet w l = some content →
      ((linesOf content).all (fun line =>
          match jsonParse line with
          | some v => isObj v
          | none => true)) = true →
      readStatements w l = (linesOf content).filterMap jsonParse) := by
  constructor
  · intro h
    unfold readStatements
    rw [h]
  · intro content h hall
    have hrs : readStatements w l = parsedRecords content := by
      unfold readStatements
      rw [h]
    rw [hrs]
    unfold parsedRecords
    unfold linesOf at hall ⊢
    generalize (splitNl content).filter hasNonWs = lines at hall ⊢
    induction lines with
    | nil => rfl
    | cons line rest ih =>
      rw [List.all_cons, Bool.and_eq_true] at hall
      rw [List.filterMap_cons, List.filterMap_cons]
      cases hp : jsonParse line with
      | none =>
        have : parseLine line = none := by
          unfold parseLine
          rw [hp]
        rw [this, ih hall.2]
      | some v =>
        rw [hp] at hall
        have htr : truthy v = true := isObj_truthy v hall.1
        have hpl : parseLine line = if truthy v = true then some v else none := by
          unfold parseLine
          rw [hp]
        rw [hpl, if_pos htr, ih hall.2]

/-- Witness for C6 at a concrete store: a missing file reads as empty and
a file with a malformed line reads as its parse survivors. -/
theorem c6_witness :
    readStatements wC6 ⟨"d".toList, "zz".toList⟩ = [] ∧
    readStatements wC6 locC6 = (linesOf contentC6).filterMap jsonParse :=
  ⟨(c6_readStatements_missing_and_drop wC6 ⟨"d".toList, "zz".toList⟩).1 rfl,
   (c6_readStatements_missing_and_drop wC6 locC6).2 contentC6 rfl (by decide)⟩

/- ---------------------------------------------------------------------
   Claim C10 — the `.filter(Boolean)` step drops successfully parsed
   falsy values exactly like malformed lines.
   --------------------------------------------------------------------- -/

/-- Claim C10: a line that is valid JSON for a falsy value ("null",
"false", "0", the empty-string literal) parses successfully yet is
discarded by readStatements exactly as a malformed line is: the returned
sequence contains only truthy values. -/
theorem c10_falsy_lines_dropped (w : World) (l : Loc) (content : Str)
    (h : fsGet w l = some content) :
    (∀ v ∈ readStatements w l, truthy v = true) ∧
    jsonParse "null".toList = some Js.null ∧ truthy Js.null = false ∧
    jsonParse "false".toList = some (Js.bool false) ∧ truthy (Js.bool false) = false ∧
    jsonParse "0".toList = some (Js.num 0) ∧ truthy (Js.num 0) = false ∧
    jsonParse [quoteChar, quoteChar] = some (Js.str []) ∧ truthy (Js.str []) = false := by
  refine ⟨?_, rfl, rfl, rfl, rfl, rfl, rfl, rfl, rfl⟩
  intro v hv
  have hrs : readStatements w l = parsedRecords content := by
    unfold readStatements
    rw [h]
  rw [hrs] at hv
  unfold parsedRecords at hv
  rcases List.mem_filterMap.1 hv with ⟨line, -, hp⟩
  cases hj : jsonParse line with
  | none =>
    have hpl : parseLine line = none := by
      unfold parseLine
      rw [hj]
    rw [hpl] at hp
    exact absurd hp (by simp)
  | some u =>
    have hpl : parseLine line = if truthy u = true then some u else none := by
      unfold parseLine
      rw [hj]
    rw [hpl] at hp
    by_cases ht : truthy u = true
    · rw [if_pos ht] at hp
      have : u = v := by
        injection hp
      rw [← this]
      exact ht
    · rw [if_neg ht] at hp
      exact absurd hp (by simp)

/-- Witness for C10 at a concrete store holding the falsy lines. -/
theorem c10_witness :
    (∀ v ∈ readStatements wC10 locC6, truthy v = true) ∧
    jsonParse "null".toList = some Js.null ∧ truthy Js.null = false ∧
    jsonParse "false".toList = some (Js.bool false) ∧ truthy (Js.bool false) = false ∧
    jsonParse "0".toList = some (Js.num 0) ∧ truthy (Js.num 0) = false ∧
    jsonParse [quoteChar, quoteChar] = some (Js.str []) ∧ truthy (Js.str []) = false :=
  c10_falsy_lines_dropped wC10 locC6 contentC10 rfl

/- ---------------------------------------------------------------------
   Resolution-layer helpers: behaviour of getCurrentRotationIndex,
   needsRotation and getWriteFilePath when no fault is injected.
   --------------------------------------------------------------------- -/

theorem readdirNames_nil_of_not_exists (w : World) (dir : Str)
    (h : dirExistsB w dir = false) : readdirNames w dir = [] := by
  unfold dirExistsB at h
  unfold readdirNames
  have h2 : w.fs.any (fun e => e.1.dir == dir) = false := by
    cases hc : w.fs.any (fun e => e.1.dir == dir) with
    | false => rfl
    | true => rw [hc, Bool.or_true] at h; exact absurd h (by simp)
  have h3 : w.fs.filter (fun e => e.1.dir == dir) = [] := by
    rw [List.filter_eq_nil_iff]
    intro e he
    have := List.any_eq_false.1 h2 e he
    simpa using this
  rw [h3]
  rfl

theorem getCurrentRotationIndex_no_err (w : World) (d : JsDate)
    (hrd : w.readdirErr (getDateDirectory w d) = none) :
    getCurrentRotationIndex w d
      = .ok (rotFold (dayBase d) (readdirNames w (getDateDirectory w d))) := by
  unfold getCurrentRotationIndex rotFold
  by_cases hex : dirExistsB w (getDateDirectory w d) = true
  · rw [if_pos hex, hrd]
  · rw [if_neg hex, readdirNames_nil_of_not_exists w _ (by
      cases hc : dirExistsB w (getDateDirectory w d) with
      | false => rfl
      | true => exact absurd hc hex)]
    rfl

theorem needsRotation_no_err (w : World) (l : Loc) (hst : w.statErr l = none) :
    needsRotation w l = .ok (match fsGet w l with
      | none => false
      | some c => decide (w.maxFileSize ≤ c.length)) := by
  unfold needsRotation
  cases hf : fsGet w l with
  | none => rfl
  | some c => rw [hst]

theorem getWriteFilePath_fst (w : World) (d : JsDate) :
    (getWriteFilePath w d).1 = ensureDir w (getDateDirectory w d) := by
  unfold getWriteFilePath
  dsimp only
  split
  · rfl
  · split <;> rfl

theorem getFilePath_dir (w : World) (d : JsDate) (o : Option Nat) :
    (getFilePath w d o).dir = getDateDirectory w d := by
  unfold getFilePath
  split
  · split <;> rfl
  · rfl

theorem getWriteFilePath_no_err (w : World) (d : JsDate)
    (hrd : ∀ dir, w.readdirErr dir = none) (hst : ∀ l, w.statErr l = none) :
    ∃ l, getWriteFilePath w d = (ensureDir w (getDateDirectory w d), .ok l)
      ∧ l.dir = getDateDirectory w d := by
  have hfields := ensureDir_fields w (getDateDirectory w d)
  have hdir : getDateDirectory (ensureDir w (getDateDirectory w d)) d
      = getDateDirectory w d :=
    getDateDirectory_congr _ _ d hfields.1
  have h1 := getCurrentRotationIndex_no_err (ensureDir w (getDateDirectory w d)) d
    (by rw [hfields.2.2.2.2.2.1, hdir]; exact hrd _)
  have h2 := fun l => needsRotation_no_err (ensureDir w (getDateDirectory w d)) l
    (by rw [hfields.2.2.2.2.2.2.1]; exact hst l)
  have hfp : ∀ o, (getFilePath (ensureDir w (getDateDirectory w d)) d o).dir
      = getDateDirectory w d :=
    fun o => (getFilePath_dir (ensureDir w (getDateDirectory w d)) d o).trans hdir
  unfold getWriteFilePath
  dsimp only
  rw [h1]
  dsimp only
  rw [h2]
  split
  · rename_i heq
    exact absurd heq (by simp)
  · exact ⟨_, rfl, hfp _⟩
  · exact ⟨_, rfl, hfp _⟩

/- ---------------------------------------------------------------------
   Claim C8 — getCurrentRotationIndex: maximum matching suffix, 0 when
   nothing matches, never throws for an absent directory.
   --------------------------------------------------------------------- -/

theorem rotFold_eq_spec (base : Str) (files : List Str) :
    rotFold base files = ((files.filterMap (shardIdx base)).foldl max 0) := by
  unfold rotFold
  suffices h : ∀ acc, files.foldl (fun mx f =>
      match matchShard base f with
      | some (some i) => max mx i
      | _ => mx) acc = (files.filterMap (shardIdx base)).foldl max acc from h 0
  induction files with
  | nil => intro acc; rfl
  | cons f rest ih =>
    intro acc
    rw [List.foldl_cons, List.filterMap_cons]
    cases hm : matchShard base f with
    | none =>
      have hs : shardIdx base f = none := by unfold shardIdx; rw [hm]
      rw [hs]
      exact ih acc
    | some o =>
      cases o with
      | none =>
        have hs : shardIdx base f = some 0 := by unfold shardIdx; rw [hm]
        rw [hs]
        show List.foldl _ acc rest
          = List.foldl max acc (0 :: List.filterMap (shardIdx base) rest)
        rw [List.foldl_cons, Nat.max_eq_left (Nat.zero_le acc)]
        exact ih acc
      | some i =>
        have hs : shardIdx base f = some i := by unfold shardIdx; rw [hm]
        rw [hs]
        show List.foldl _ (max acc i) rest
          = List.foldl max acc (i :: List.filterMap (shardIdx base) rest)
        rw [List.foldl_cons]
        exact ih (max acc i)

/-- Claim C8: getCurrentRotationIndex returns 0 without throwing when the
date's directory does not exist; when it exists and readdir succeeds it
returns the maximum rotation index denoted by the filenames matching the
shard pattern (the unsuffixed base file denoting index 0), and 0 when no
file matches. -/
theorem c8_current_rotation_index (w : World) (d : JsDate) :
    (dirExistsB w (getDateDirectory w d) = false → getCurrentRotationIndex w d = .ok 0) ∧
    (w.readdirErr (getDateDirectory w d) = none →
      getCurrentRotationIndex w d
        = .ok (((readdirNames w (getDateDirectory w d)).filterMap
            (shardIdx (dayBase d))).foldl max 0)) ∧
    (w.readdirErr (getDateDirectory w d) = none →
      (∀ f ∈ readdirNames w (getDateDirectory w d), matchShard (dayBase d) f = none) →
      getCurrentRotationIndex w d = .ok 0) := by
  refine ⟨?_, ?_, ?_⟩
  · intro h
    unfold getCurrentRotationIndex
    rw [if_neg (by rw [h]; simp)]
  · intro hrd
    rw [getCurrentRotationIndex_no_err w d hrd, rotFold_eq_spec]
  · intro hrd hnone
    rw [getCurrentRotationIndex_no_err w d hrd, rotFold_eq_spec]
    have : (readdirNames w (getDateDirectory w d)).filterMap (shardIdx (dayBase d)) = [] := by
      rw [List.filterMap_eq_nil_iff]
      intro f hf
      unfold shardIdx
      rw [hnone f hf]
    rw [this]
    rfl

/-- Witness for C8 at a concrete store: one base shard and one rotated
shard for day 0, plus the absent-directory branch of a fresh world. -/
theorem c8_witness :
    getCurrentRotationIndex w0 (some 10) = .ok 0 ∧
    getCurrentRotationIndex wC8 (some 10)
      = .ok (((readdirNames wC8 (getDateDirectory wC8 (some 10))).filterMap
          (shardIdx (dayBase (some 10)))).foldl max 0) :=
  ⟨(c8_current_rotation_index w0 (some 10)).1 rfl,
   (c8_current_rotation_index wC8 (some 10)).2.1 rfl⟩

/- ---------------------------------------------------------------------
   Claim C3 — appendStatement error handling.  The write itself never
   raises (failure is returned as data), but the path resolution step
   sits before the try block, so injected readdir/stat failures reject
   the call: the claim is corrected accordingly.
   --------------------------------------------------------------------- -/

theorem c3_core (w : World) (stmt : Js) (ts : JsDate)
    (hrd : ∀ dir, w.readdirErr dir = none) (hst : ∀ l, w.statErr l = none)
    (hlk : w.locks = []) :
    ∃ w' r, appendStatement w stmt (some ts) = .ok w' r ∧
      r.error = w.appendErr r.filePath ∧ r.success = (w.appendErr r.filePath).isNone := by
  obtain ⟨l, hgw, -⟩ := getWriteFilePath_no_err w ts hrd hst
  have hfields := ensureDir_fields w (getDateDirectory w ts)
  unfold appendStatement
  dsimp only
  rw [hgw]
  dsimp only
  rw [if_neg (by rw [hfields.2.2.2.2.1, hlk]; exact List.not_mem_nil l)]
  rw [hfields.2.2.2.2.2.2.2.1]
  cases happ : w.appendErr l with
  | some msg =>
    refine ⟨_, _, rfl, ?_, ?_⟩
    · show some msg = w.appendErr l
      rw [happ]
    · show false = (w.appendErr l).isNone
      rw [happ]
      rfl
  | none =>
    refine ⟨_, _, rfl, ?_, ?_⟩
    · show none = w.appendErr l
      rw [happ]
    · show true = (w.appendErr l).isNone
      rw [happ]
      rfl

/-- Claim C3 (amended): for every record and date, when path resolution
(directory listing and stat) does not fail and the target lock is free,
appendStatement never raises: it returns a result value whose `success`
is false exactly when the underlying append fails, carrying that
failure's message in `error`.  (I/O failures inside path resolution do
propagate as exceptions — see the counterexample.) -/
theorem c3_append_failures_returned_as_data (w : World) (stmt : Js) (date : Option JsDate)
    (hrd : ∀ dir, w.readdirErr dir = none) (hst : ∀ l, w.statErr l = none)
    (hlk : w.locks = []) :
    ∃ w' r, appendStatement w stmt date = .ok w' r ∧
      r.error = w.appendErr r.filePath ∧ r.success = (w.appendErr r.filePath).isNone := by
  cases date with
  | some d => exact c3_core w stmt d hrd hst hlk
  | none => exact c3_core w stmt (resolveDate w stmt) hrd hst hlk

/-- Witness for C3 at a concrete world whose every append fails: the
call still returns (success false, message "EIO"). -/
theorem c3_witness :
    ∃ w' r, appendStatement wErrAll recNum none = .ok w' r ∧
      r.error = wErrAll.appendErr r.filePath ∧
      r.success = (wErrAll.appendErr r.filePath).isNone :=
  c3_append_failures_returned_as_data wErrAll recNum none
    (fun _ => rfl) (fun _ => rfl) rfl

set_option maxRecDepth 10000 in
/-- Counterexample to C3 as stated: with the day-0 directory present but
its `readdir` failing, appendStatement rejects instead of returning a
result value. -/
theorem c3_counterexample : (appendStatement wRd recNum none).isRaised = true := by decide

/- ---------------------------------------------------------------------
   Claim C9 — the lock is released on every completed append path.
   --------------------------------------------------------------------- -/

theorem writeGroups_locks : ∀ (gs : List Group) (w : World) (acc : BatchResult)
    (w' : World) (res : BatchResult),
    writeGroups w acc gs = .ok w' res → w'.locks = w.locks := by
  intro gs
  induction gs with
  | nil =>
    intro w acc w' res h
    cases h
    rfl
  | cons g rest ih =>
    intro w acc w' res h
    unfold writeGroups at h
    rcases hgw : getWriteFilePath w g.date with ⟨w1, r⟩
    rw [hgw] at h
    have hw1 : w1 = ensureDir w (getDateDirectory w g.date) := by
      have hf := getWriteFilePath_fst w g.date
      rw [hgw] at hf
      exact hf
    have hw1locks : w1.locks = w.locks := by
      rw [hw1, (ensureDir_fields _ _).2.2.2.2.1]
    cases r with
    | error e => exact Res.noConfusion h
    | ok l =>
      dsimp only at h
      by_cases hmem : l ∈ w1.locks
      · rw [if_pos hmem] at h
        exact Res.noConfusion h
      · rw [if_neg hmem] at h
        cases happ : w1.appendErr l with
        | some msg =>
          rw [happ] at h
          have hrec := ih _ _ _ _ h
          rw [hrec]
          unfold releaseLock
          dsimp only
          rw [List.erase_cons_head, hw1locks]
        | none =>
          rw [happ] at h
          have hrec := ih _ _ _ _ h
          rw [hrec]
          unfold releaseLock appendData
          dsimp only
          rw [List.erase_cons_head, hw1locks]

theorem appendStatement_locks (w : World) (stmt : Js) (ts : JsDate) :
    ∀ w' r, appendStatement w stmt (some ts) = .ok w' r →
      r.filePath ∉ w'.locks ∧ w'.locks = w.locks := by
  intro w' r hok
  unfold appendStatement at hok
  dsimp only at hok
  rcases hgw : getWriteFilePath w ts with ⟨w1, res⟩
  rw [hgw] at hok
  have hw1 : w1 = ensureDir w (getDateDirectory w ts) := by
    have hf := getWriteFilePath_fst w ts
    rw [hgw] at hf
    exact hf
  have hw1locks : w1.locks = w.locks := by
    rw [hw1, (ensureDir_fields _ _).2.2.2.2.1]
  cases res with
  | error e => exact Res.noConfusion hok
  | ok l =>
    dsimp only at hok
    by_cases hmem : l ∈ w1.locks
    · rw [if_pos hmem] at hok
      exact Res.noConfusion hok
    · rw [if_neg hmem] at hok
      cases happ : w1.appendErr l with
      | some msg =>
        rw [happ] at hok
        cases hok
        constructor
        · show l ∉ (releaseLock _ l).locks
          unfold releaseLock
          dsimp only
          rw [List.erase_cons_head, hw1locks]
          rw [hw1locks] at hmem
          exact hmem
        · show (releaseLock _ l).locks = w.locks
          unfold releaseLock
          dsimp only
          rw [List.erase_cons_head, hw1locks]
      | none =>
        rw [happ] at hok
        cases hok
        constructor
        · show l ∉ (releaseLock _ l).locks
          unfold releaseLock appendData
          dsimp only
          rw [List.erase_cons_head, hw1locks]
          rw [hw1locks] at hmem
          exact hmem
        · show (releaseLock _ l).locks = w.locks
          unfold releaseLock appendData
          dsimp only
          rw [List.erase_cons_head, hw1locks]

/-- Claim C9: once an append operation completes with a result — whether
the write succeeded or failed — the lock table holds no entry for the
resolved path: appendStatement leaves its path unlocked and restores the
lock table, and appendStatements restores the lock table across all its
groups. -/
theorem c9_lock_released_on_completion (w : World) (stmt : Js) (date : Option JsDate)
    (stmts : List Js) :
    (∀ w' r, appendStatement w stmt date = .ok w' r →
      r.filePath ∉ w'.locks ∧ w'.locks = w.locks) ∧
    (∀ w' res, appendStatements w stmts = .ok w' res → w'.locks = w.locks) := by
  constructor
  · cases date with
    | some d => exact appendStatement_locks w stmt d
    | none => exact appendStatement_locks w stmt (resolveDate w stmt)
  · intro w' res hok
    unfold appendStatements at hok
    cases hb : buildGroups w stmts [] with
    | error e =>
      rw [hb] at hok
      exact Res.noConfusion hok
    | ok groups =>
      rw [hb] at hok
      exact writeGroups_locks groups w _ w' res hok

set_option maxRecDepth 20000 in
/-- Witness for C9: a concrete successful append and a concrete batch
leave the lock table empty. -/
theorem c9_witness :
    (∃ w' r, appendStatement w0 recNum none = .ok w' r ∧
      r.filePath ∉ w'.locks ∧ w'.locks = w0.locks) ∧
    (∃ w' res, appendStatements w0 [recNum] = .ok w' res ∧ w'.locks = w0.locks) := by
  constructor
  · refine ⟨_, _, rfl, ?_⟩
    exact (c9_lock_released_on_completion w0 recNum none []).1 _ _ rfl
  · refine ⟨_, _, rfl, ?_⟩
    exact (c9_lock_released_on_completion w0 recNum none [recNum]).2 _ _ rfl

/- ---------------------------------------------------------------------
   Claim C4 — getWriteFilePath rotation behaviour.
   --------------------------------------------------------------------- -/

theorem getFilePath_congr (w1 w2 : World) (d : JsDate) (o : Option Nat)
    (h : w1.baseDir = w2.baseDir) : getFilePath w1 d o = getFilePath w2 d o := by
  unfold getFilePath
  rw [getDateDirectory_congr w1 w2 d h]

theorem getFilePath_some_zero (w : World) (d : JsDate) :
    getFilePath w d (some 0) = getFilePath w d none := by
  unfold getFilePath
  dsimp only
  rw [if_neg (by omega : ¬ (0:Nat) < 0)]

theorem getFilePath_zero_opt (w : World) (d : JsDate) (ri : Nat) :
    getFilePath w d (if ri = 0 then none else some ri) = getFilePath w d (some ri) := by
  by_cases h : ri = 0
  · rw [if_pos h, h, getFilePath_some_zero]
  · rw [if_neg h]

theorem stripFront_append (base rest : Str) : stripFront base (base ++ rest) = some rest := by
  induction base with
  | nil => rfl
  | cons c cs ih =>
    show stripFront (c :: cs) (c :: (cs ++ rest)) = some rest
    unfold stripFront
    rw [if_pos rfl]
    exact ih

theorem matchShard_base_ext (base : Str) : matchShard base (base ++ jsonlExt) = some none := by
  unfold matchShard
  rw [stripFront_append]
  dsimp only
  rw [if_pos rfl]

theorem mem_readdirNames_of_fsGet_some (w : World) (l : Loc) (c : Str)
    (h : fsGet w l = some c) : l.name ∈ readdirNames w l.dir := by
  unfold fsGet at h
  cases hf : w.fs.find? (fun e => e.1 == l) with
  | none => rw [hf] at h; exact Option.noConfusion h
  | some e =>
    have hmem : e ∈ w.fs := List.mem_of_find?_eq_some hf
    have hpred := List.find?_some hf
    have he1 : e.1 = l := by simpa using hpred
    unfold readdirNames
    have hfil : e ∈ w.fs.filter (fun x => x.1.dir == l.dir) :=
      List.mem_filter.mpr ⟨hmem, by rw [he1]; simp⟩
    have hmap := List.mem_map_of_mem (fun x : Loc × Str => x.1.name) hfil
    simpa [he1] using hmap

theorem rotFold_acc_none (base : Str) : ∀ (files : List Str) (acc : Nat),
    (∀ f ∈ files, matchShard base f = none) →
    List.foldl (fun mx f =>
      match matchShard base f with
      | some (some i) => max mx i
      | _ => mx) acc files = acc := by
  intro files
  induction files with
  | nil => intro acc h; rfl
  | cons f rest ih =>
    intro acc h
    rw [List.foldl_cons]
    have hstep : (match matchShard base f with
        | some (some i) => max acc i
        | _ => acc) = acc := by
      rw [h f (List.mem_cons_self f rest)]
    rw [hstep]
    exact ih acc (fun g hg => h g (List.mem_cons_of_mem f hg))

theorem rotFold_all_none (base : Str) (files : List Str)
    (h : ∀ f ∈ files, matchShard base f = none) : rotFold base files = 0 :=
  rotFold_acc_none base files 0 h

/-- Full case analysis of `getWriteFilePath`: with no injected failures
it resolves, relative to the current rotation index, to the current
shard (absent or below the threshold) or to the next index. -/
theorem getWriteFilePath_cases (w : World) (d : JsDate) (ri : Nat)
    (hrd : ∀ dir, w.readdirErr dir = none) (hst : ∀ l, w.statErr l = none)
    (hri : getCurrentRotationIndex (ensureDir w (getDateDirectory w d)) d = .ok ri) :
    getWriteFilePath w d = (ensureDir w (getDateDirectory w d),
      .ok (match shardSize w (getFilePath w d (some ri)) with
        | none => getFilePath w d (some ri)
        | some n => if w.maxFileSize ≤ n then getFilePath w d (some (ri + 1))
                    else getFilePath w d (some ri))) := by
  have hfields := ensureDir_fields w (getDateDirectory w d)
  have hstat : ∀ l, (ensureDir w (getDateDirectory w d)).statErr l = none := by
    rw [hfields.2.2.2.2.2.2.1]; exact hst
  have hfs : ∀ l, fsGet (ensureDir w (getDateDirectory w d)) l = fsGet w l :=
    fun l => fsGet_congr _ _ l hfields.2.2.2.1
  have hfp : ∀ o, getFilePath (ensureDir w (getDateDirectory w d)) d o
      = getFilePath w d o :=
    fun o => getFilePath_congr _ _ d o hfields.1
  unfold getWriteFilePath
  dsimp only
  rw [hri]
  dsimp only
  rw [getFilePath_zero_opt, hfp]
  rw [needsRotation_no_err _ _ (hstat _)]
  rw [hfs, hfields.2.1, hfp]
  unfold shardSize
  cases hfg : fsGet w (getFilePath w d (some ri)) with
  | none => rfl
  | some c =>
    have hmap : Option.map List.length (some c) = some c.length := rfl
    rw [hmap]
    dsimp only
    by_cases hsz : w.maxFileSize ≤ c.length
    · rw [decide_eq_true hsz, if_pos hsz]
    · rw [decide_eq_false hsz, if_neg hsz]

/-- Claim C4: with no injected failures, where ri is the current rotation
index of date D: the write target is shard (D, ri) when that shard is
absent or smaller than the threshold, shard (D, ri+1) when its size
reached the threshold, and when no file matches the shard pattern the
index is 0 and the target is the unsuffixed filename. -/
theorem c4_write_target_rotation (w : World) (d : JsDate) (ri : Nat)
    (hrd : ∀ dir, w.readdirErr dir = none) (hst : ∀ l, w.statErr l = none)
    (hri : getCurrentRotationIndex (ensureDir w (getDateDirectory w d)) d = .ok ri) :
    (shardSize w (getFilePath w d (some ri)) = none →
      getWriteFilePath w d
        = (ensureDir w (getDateDirectory w d), .ok (getFilePath w d (some ri)))) ∧
    (∀ n, shardSize w (getFilePath w d (some ri)) = some n → n < w.maxFileSize →
      getWriteFilePath w d
        = (ensureDir w (getDateDirectory w d), .ok (getFilePath w d (some ri)))) ∧
    (∀ n, shardSize w (getFilePath w d (some ri)) = some n → w.maxFileSize ≤ n →
      getWriteFilePath w d
        = (ensureDir w (getDateDirectory w d), .ok (getFilePath w d (some (ri + 1))))) ∧
    ((∀ f ∈ readdirNames w (getDateDirectory w d), matchShard (dayBase d) f = none) →
      ri = 0 ∧ getWriteFilePath w d
        = (ensureDir w (getDateDirectory w d), .ok (getFilePath w d none))) := by
  have hcases := getWriteFilePath_cases w d ri hrd hst hri
  refine ⟨?_, ?_, ?_, ?_⟩
  · intro h
    rw [hcases, h]
  · intro n hn hlt
    rw [hcases, hn]
    dsimp only
    rw [if_neg (by omega)]
  · intro n hn hge
    rw [hcases, hn]
    dsimp only
    rw [if_pos hge]
  · intro hnone
    have hfields := ensureDir_fields w (getDateDirectory w d)
    have hdir : getDateDirectory (ensureDir w (getDateDirectory w d)) d
        = getDateDirectory w d :=
      getDateDirectory_congr _ _ d hfields.1
    have hcri := getCurrentRotationIndex_no_err (ensureDir w (getDateDirectory w d)) d
      (by rw [hfields.2.2.2.2.2.1, hdir]; exact hrd _)
    rw [hri] at hcri
    have hnames : readdirNames (ensureDir w (getDateDirectory w d))
        (getDateDirectory (ensureDir w (getDateDirectory w d)) d)
        = readdirNames w (getDateDirectory w d) := by
      rw [hdir]
      exact readdirNames_congr _ _ _ hfields.2.2.2.1
    rw [hnames] at hcri
    have hri0 : ri = 0 := by
      have := rotFold_all_none (dayBase d) (readdirNames w (getDateDirectory w d)) hnone
      rw [this] at hcri
      exact (Except.ok.injEq _ _).mp hcri
    subst hri0
    refine ⟨rfl, ?_⟩
    have habs : fsGet w (getFilePath w d (some 0)) = none := by
      cases hf : fsGet w (getFilePath w d (some 0)) with
      | none => rfl
      | some c =>
        have hm := mem_readdirNames_of_fsGet_some w _ c hf
        rw [getFilePath_dir w d (some 0)] at hm
        have hmatch := hnone _ hm
        have hname : (getFilePath w d (some 0)).name = dayBase d ++ jsonlExt := by
          rw [getFilePath_some_zero]
          rfl
        rw [hname, matchShard_base_ext] at hmatch
        exact Option.noConfusion hmatch
    have habs' : shardSize w (getFilePath w d (some 0)) = none := by
      unfold shardSize
      rw [habs]
      rfl
    rw [hcases, habs', getFilePath_some_zero]

set_option maxRecDepth 20000 in
/-- Witness for C4: in a world holding shards 01.jsonl and 01-002.jsonl
for day 0, the write target is the rotated shard 01-002.jsonl (index 2,
size below the threshold); in the empty world the target is the
unsuffixed filename. -/
theorem c4_witness :
    getWriteFilePath wC8 (some 10) = (ensureDir wC8 (getDateDirectory wC8 (some 10)),
      .ok (getFilePath wC8 (some 10) (some 2))) ∧
    getWriteFilePath w0 (some 10) = (ensureDir w0 (getDateDirectory w0 (some 10)),
      .ok (getFilePath w0 (some 10) none)) := by
  constructor
  · exact (c4_write_target_rotation wC8 (some 10) 2 (fun _ => rfl) (fun _ => rfl)
      rfl).2.1 1 (by decide) (by decide)
  · exact ((c4_write_target_rotation w0 (some 10) 0 (fun _ => rfl) (fun _ => rfl)
      rfl).2.2.2 (by
        intro f hf
        rw [show readdirNames w0 (getDateDirectory w0 (some 10)) = [] from rfl] at hf
        exact absurd hf (List.not_mem_nil f))).2

/- ---------------------------------------------------------------------
   Claim C1 — readStatementsInRange membership.  The scan's upper bound
   is the end of endDate's calendar day, not endDate itself: the claim's
   `timestamp ≤ e` is corrected to `timestamp ≤ endOfDay(e)`.
   --------------------------------------------------------------------- -/

/-- Claim C1 (amended): with no injected readdir failures, a record is
emitted by scanRange(s, e) exactly when it is stored in a
pattern-matching shard of a day within [day(s), day(e)] and it passes
the timestamp filter with bounds s and endOfDay(e): records whose truthy
`timestamp` parses to t are emitted iff s ≤ t ≤ endOfDay(e) (not
`t ≤ e` as claimed), and records without a truthy `timestamp` pass
unconditionally.  In particular no shard of a day outside the iterated
range contributes. -/
theorem c1_scan_range_membership (w : World) (s e : Int) (r : Js)
    (hrd : ∀ dir, w.readdirErr dir = none) :
    r ∈ exceptList (readStatementsInRange w (some s) (some e)) ↔
      ∃ d, epochDay s ≤ d ∧ d ≤ epochDay e ∧
        ∃ f, f ∈ readdirNames w (dirOfDay w d) ∧
          (matchShard (baseOfDay d) f).isSome = true ∧
          r ∈ readStatements w ⟨dirOfDay w d, f⟩ ∧
          emitFilter s (endOfDayMs e) r = true := by
  unfold readStatementsInRange
  dsimp only
  rw [scanDays_ok w s (endOfDayMs e) hrd]
  simp only [exceptList]
  rw [mem_concatMap]
  constructor
  · rintro ⟨d, hd, hr⟩
    rw [mem_dayList] at hd
    have hr' : r ∈ exceptList (scanDay w s (endOfDayMs e) d) := hr
    rw [mem_scanDay w s (endOfDayMs e) d r (hrd _)] at hr'
    exact ⟨d, hd.1, hd.2, hr'⟩
  · rintro ⟨d, h1, h2, hrest⟩
    exact ⟨d, (mem_dayList _ _ _).2 ⟨h1, h2⟩,
      (mem_scanDay w s (endOfDayMs e) d r (hrd _)).2 hrest⟩

set_option maxRecDepth 10000 in
/-- Witness for C1 at a concrete store: the day-0 record is returned by
a scan covering its day. -/
theorem c1_witness :
    recNum ∈ exceptList (readStatementsInRange wC1 (some 0) (some 0)) :=
  (c1_scan_range_membership wC1 0 0 recNum (fun _ => rfl)).2
    ⟨0, by decide, by decide, "01.jsonl".toList, by decide, by decide,
     by rw [show readStatements wC1 ⟨dirOfDay wC1 0, "01.jsonl".toList⟩ = [recNum] from rfl]
        exact List.mem_singleton.mpr rfl,
     by decide⟩

set_option maxRecDepth 10000 in
/-- Counterexample to C1 as stated: scanRange(0, 0) returns the record
whose timestamp is 10, although 10 is outside [0, 0] — the code's upper
bound is the end of endDate's day. -/
theorem c1_counterexample :
    exceptList (readStatementsInRange wC1 (some 0) (some 0)) = [recNum] ∧
      getField recNum tsKey = some (Js.num 10) ∧ ¬ ((10 : Int) ≤ 0) :=
  ⟨rfl, rfl, by omega⟩

/- ---------------------------------------------------------------------
   Claim C5 — appendStatements batching.  Grouping lemmas first.
   --------------------------------------------------------------------- -/

theorem addToGroups_perm (gs : List Group) (k : Str) (d : JsDate) (s : Js) :
    List.Perm (concatMap Group.stmts (addToGroups gs k d s))
      (concatMap Group.stmts gs ++ [s]) := by
  induction gs with
  | nil =>
    show List.Perm (concatMap Group.stmts [⟨k, d, [s]⟩]) (concatMap Group.stmts [] ++ [s])
    simp only [concatMap, List.append_nil, List.nil_append]
    exact List.Perm.refl _
  | cons g rest ih =>
    unfold addToGroups
    by_cases h : g.key = k
    · rw [if_pos h]
      show List.Perm ((g.stmts ++ [s]) ++ concatMap Group.stmts rest)
        ((g.stmts ++ concatMap Group.stmts rest) ++ [s])
      rw [List.append_assoc, List.append_assoc]
      exact List.Perm.append_left g.stmts List.perm_append_comm
    · rw [if_neg h]
      show List.Perm (g.stmts ++ concatMap Group.stmts (addToGroups rest k d s))
        ((g.stmts ++ concatMap Group.stmts rest) ++ [s])
      rw [List.append_assoc]
      exact List.Perm.append_left g.stmts ih

theorem addToGroups_keyinv (w : World) (t : Int) (s : Js)
    (hres : resolveDate w s = some t) :
    ∀ (gs : List Group),
    (∀ g ∈ gs, ∀ x ∈ g.stmts, ∃ u, resolveDate w x = some u ∧ isoDateKey u = g.key) →
    ∀ g ∈ addToGroups gs (isoDateKey t) (some t) s,
      ∀ x ∈ g.stmts, ∃ u, resolveDate w x = some u ∧ isoDateKey u = g.key := by
  intro gs
  induction gs with
  | nil =>
    intro _ g hg x hx
    rw [show addToGroups [] (isoDateKey t) (some t) s
        = [⟨isoDateKey t, some t, [s]⟩] from rfl] at hg
    rw [List.mem_singleton] at hg
    subst hg
    rw [show (⟨isoDateKey t, some t, [s]⟩ : Group).stmts = [s] from rfl,
      List.mem_singleton] at hx
    subst hx
    exact ⟨t, hres, rfl⟩
  | cons g0 rest ih =>
    intro hinv g hg x hx
    unfold addToGroups at hg
    by_cases h : g0.key = isoDateKey t
    · rw [if_pos h] at hg
      rw [List.mem_cons] at hg
      cases hg with
      | inl hgeq =>
        subst hgeq
        have hx' : x ∈ g0.stmts ++ [s] := hx
        rcases List.mem_append.1 hx' with hxa | hxb
        · exact hinv g0 (List.mem_cons_self _ _) x hxa
        · rw [List.mem_singleton] at hxb
          subst hxb
          exact ⟨t, hres, h.symm⟩
      | inr hgmem =>
        exact hinv g (List.mem_cons_of_mem _ hgmem) x hx
    · rw [if_neg h] at hg
      rw [List.mem_cons] at hg
      cases hg with
      | inl hgeq =>
        subst hgeq
        exact hinv g (List.mem_cons_self _ _) x hx
      | inr hgmem =>
        exact ih (fun g' hg' => hinv g' (List.mem_cons_of_mem _ hg')) g hgmem x hx

theorem buildGroups_cons_eq (w : World) (s : Js) (rest : List Js) (acc : List Group) :
    buildGroups w (s :: rest) acc
      = match resolveDate w s with
        | none => .error "Invalid time value".toList
        | some t => buildGroups w rest (addToGroups acc (isoDateKey t) (some t) s) := rfl

theorem buildGroups_spec (w : World) : ∀ (stmts : List Js) (acc : List Group),
    (∀ s ∈ stmts, (resolveDate w s).isSome = true) →
    ∃ groups, buildGroups w stmts acc = .ok groups ∧
      List.Perm (concatMap Group.stmts groups) (concatMap Group.stmts acc ++ stmts) ∧
      ((∀ g ∈ acc, ∀ x ∈ g.stmts, ∃ u, resolveDate w x = some u ∧ isoDateKey u = g.key) →
       ∀ g ∈ groups, ∀ x ∈ g.stmts, ∃ u, resolveDate w x = some u ∧ isoDateKey u = g.key) := by
  intro stmts
  induction stmts with
  | nil =>
    intro acc _
    exact ⟨acc, rfl, by simp, fun h => h⟩
  | cons s rest ih =>
    intro acc hvalid
    have hs := hvalid s (List.mem_cons_self _ _)
    cases hres : resolveDate w s with
    | none =>
      rw [hres] at hs
      exact absurd hs (by simp)
    | some t =>
      rw [buildGroups_cons_eq, hres]
      obtain ⟨groups, h1, h2, h3⟩ := ih (addToGroups acc (isoDateKey t) (some t) s)
        (fun x hx => hvalid x (List.mem_cons_of_mem _ hx))
      refine ⟨groups, h1, ?_, ?_⟩
      · refine h2.trans ?_
        refine ((addToGroups_perm acc (isoDateKey t) (some t) s).append_right rest).trans ?_
        rw [List.append_assoc]
        exact List.Perm.refl _
      · intro hacc
        exact h3 (addToGroups_keyinv w t s hres acc hacc)

theorem groupsCount_split (ae : Loc → Option Str) : ∀ (gs : List Group) (locs : List Loc),
    locs.length = gs.length →
    groupsSuccCount ae gs locs + groupsFailCount ae gs locs
      = (concatMap Group.stmts gs).length := by
  intro gs
  induction gs with
  | nil => intro locs h; rfl
  | cons g rest ih =>
    intro locs h
    cases locs with
    | nil => simp at h
    | cons l ls =>
      have hlen : ls.length = rest.length := by simpa using h
      have hr := ih ls hlen
      show (match ae l with | some _ => 0 | none => g.stmts.length)
            + groupsSuccCount ae rest ls
          + ((match ae l with | some _ => g.stmts.length | none => 0)
            + groupsFailCount ae rest ls)
          = (g.stmts ++ concatMap Group.stmts rest).length
      rw [List.length_append]
      cases hae : ae l <;> dsimp only <;> omega

theorem lockCycle_fields (w1 : World) (l : Loc) :
    (releaseLock { w1 with locks := l :: w1.locks } l).locks = w1.locks ∧
    (releaseLock { w1 with locks := l :: w1.locks } l).readdirErr = w1.readdirErr ∧
    (releaseLock { w1 with locks := l :: w1.locks } l).statErr = w1.statErr ∧
    (releaseLock { w1 with locks := l :: w1.locks } l).appendErr = w1.appendErr ∧
    (releaseLock { w1 with locks := l :: w1.locks } l).log = w1.log := by
  refine ⟨?_, rfl, rfl, rfl, rfl⟩
  unfold releaseLock
  dsimp only
  rw [List.erase_cons_head]

theorem lockCycleApp_fields (w1 : World) (l : Loc) (d : Str) :
    (releaseLock (appendData { w1 with locks := l :: w1.locks } l d) l).locks = w1.locks ∧
    (releaseLock (appendData { w1 with locks := l :: w1.locks } l d) l).readdirErr
      = w1.readdirErr ∧
    (releaseLock (appendData { w1 with locks := l :: w1.locks } l d) l).statErr = w1.statErr ∧
    (releaseLock (appendData { w1 with locks := l :: w1.locks } l d) l).appendErr
      = w1.appendErr ∧
    (releaseLock (appendData { w1 with locks := l :: w1.locks } l d) l).log
      = w1.log ++ [(l, d)] := by
  refine ⟨?_, rfl, rfl, rfl, rfl⟩
  unfold releaseLock appendData
  dsimp only
  rw [List.erase_cons_head]

theorem writeGroups_spec : ∀ (gs : List Group) (w : World) (acc : BatchResult),
    (∀ dir, w.readdirErr dir = none) → (∀ l, w.statErr l = none) → w.locks = [] →
    ∃ w' res locs, writeGroups w acc gs = .ok w' res ∧
      locs.length = gs.length ∧
      res.total = acc.total ∧
      w'.locks = [] ∧
      res.success = acc.success + groupsSuccCount w.appendErr gs locs ∧
      res.failed = acc.failed + groupsFailCount w.appendErr gs locs ∧
      res.errors = acc.errors ++ groupsErrors w.appendErr gs locs ∧
      w'.log = w.log ++ groupsLog w.appendErr gs locs := by
  intro gs
  induction gs with
  | nil =>
    intro w acc hrd hst hlk
    exact ⟨w, acc, [], rfl, rfl, rfl, hlk, (Nat.add_zero _).symm, (Nat.add_zero _).symm,
      (List.append_nil _).symm, (List.append_nil _).symm⟩
  | cons g rest ih =>
    intro w acc hrd hst hlk
    obtain ⟨l, hgw, -⟩ := getWriteFilePath_no_err w g.date hrd hst
    have hfields := ensureDir_fields w (getDateDirectory w g.date)
    have hAE : (ensureDir w (getDateDirectory w g.date)).appendErr = w.appendErr :=
      hfields.2.2.2.2.2.2.2.1
    unfold writeGroups
    rw [hgw]
    dsimp only
    rw [if_neg (by rw [hfields.2.2.2.2.1, hlk]; exact List.not_mem_nil l)]
    cases happ : (ensureDir w (getDateDirectory w g.date)).appendErr l with
    | some msg =>
      dsimp only
      have happ' : w.appendErr l = some msg := by rw [← hAE]; exact happ
      obtain ⟨hclk, hcrd, hcst, hcae, hclog⟩ :=
        lockCycle_fields (ensureDir w (getDateDirectory w g.date)) l
      obtain ⟨w', res, locs, hwg, hlen, htot, hlk', hsucc, hfail, herr, hlog⟩ :=
        ih (releaseLock { ensureDir w (getDateDirectory w g.date) with
              locks := l :: (ensureDir w (getDateDirectory w g.date)).locks } l)
          { acc with failed := acc.failed + g.stmts.length,
                     errors := acc.errors ++ [g.key ++ ':' :: ' ' :: msg] }
          (by rw [hcrd, hfields.2.2.2.2.2.1]; exact hrd)
          (by rw [hcst, hfields.2.2.2.2.2.2.1]; exact hst)
          (by rw [hclk, hfields.2.2.2.2.1, hlk])
      refine ⟨w', res, l :: locs, hwg, by simp [hlen], htot, hlk', ?_, ?_, ?_, ?_⟩
      · rw [hsucc, hcae, hAE]
        show acc.success + groupsSuccCount w.appendErr rest locs
            = acc.success + ((match w.appendErr l with
                | some _ => 0
                | none => g.stmts.length) + groupsSuccCount w.appendErr rest locs)
        rw [happ']
        show acc.success + groupsSuccCount w.appendErr rest locs
            = acc.success + (0 + groupsSuccCount w.appendErr rest locs)
        omega
      · rw [hfail, hcae, hAE]
        show acc.failed + g.stmts.length + groupsFailCount w.appendErr rest locs
            = acc.failed + ((match w.appendErr l with
                | some _ => g.stmts.length
                | none => 0) + groupsFailCount w.appendErr rest locs)
        rw [happ']
        show acc.failed + g.stmts.length + groupsFailCount w.appendErr rest locs
            = acc.failed + (g.stmts.length + groupsFailCount w.appendErr rest locs)
        omega
      · rw [herr, hcae, hAE]
        show (acc.errors ++ [g.key ++ ':' :: ' ' :: msg]) ++ groupsErrors w.appendErr rest locs
            = acc.errors ++ ((match w.appendErr l with
                | some m => [g.key ++ ':' :: ' ' :: m]
                | none => []) ++ groupsErrors w.appendErr rest locs)
        rw [happ', List.append_assoc]
      · rw [hlog, hclog, hfields.2.2.2.2.2.2.2.2, hcae, hAE]
        show w.log ++ groupsLog w.appendErr rest locs
            = w.log ++ ((match w.appendErr l with
                | some _ => []
                | none => [(l, joinedLines g.stmts)]) ++ groupsLog w.appendErr rest locs)
        rw [happ']
        rfl
    | none =>
      dsimp only
      have happ' : w.appendErr l = none := by rw [← hAE]; exact happ
      obtain ⟨hclk, hcrd, hcst, hcae, hclog⟩ :=
        lockCycleApp_fields (ensureDir w (getDateDirectory w g.date)) l (joinedLines g.stmts)
      obtain ⟨w', res, locs, hwg, hlen, htot, hlk', hsucc, hfail, herr, hlog⟩ :=
        ih (releaseLock (appendData { ensureDir w (getDateDirectory w g.date) with
              locks := l :: (ensureDir w (getDateDirectory w g.date)).locks } l
              (joinedLines g.stmts)) l)
          { acc with success := acc.success + g.stmts.length }
          (by rw [hcrd, hfields.2.2.2.2.2.1]; exact hrd)
          (by rw [hcst, hfields.2.2.2.2.2.2.1]; exact hst)
          (by rw [hclk, hfields.2.2.2.2.1, hlk])
      refine ⟨w', res, l :: locs, hwg, by simp [hlen], htot, hlk', ?_, ?_, ?_, ?_⟩
      · rw [hsucc, hcae, hAE]
        show acc.success + g.stmts.length + groupsSuccCount w.appendErr rest locs
            = acc.success + ((match w.appendErr l with
                | some _ => 0
                | none => g.stmts.length) + groupsSuccCount w.appendErr rest locs)
        rw [happ']
        show acc.success + g.stmts.length + groupsSuccCount w.appendErr rest locs
            = acc.success + (g.stmts.length + groupsSuccCount w.appendErr rest locs)
        omega
      · rw [hfail, hcae, hAE]
        show acc.failed + groupsFailCount w.appendErr rest locs
            = acc.failed + ((match w.appendErr l with
                | some _ => g.stmts.length
                | none => 0) + groupsFailCount w.appendErr rest locs)
        rw [happ']
        show acc.failed + groupsFailCount w.appendErr rest locs
            = acc.failed + (0 + groupsFailCount w.appendErr rest locs)
        omega
      · rw [herr, hcae, hAE]
        show acc.errors ++ groupsErrors w.appendErr rest locs
            = acc.errors ++ ((match w.appendErr l with
                | some m => [g.key ++ ':' :: ' ' :: m]
                | none => []) ++ groupsErrors w.appendErr rest locs)
        rw [happ']
        rfl
      · rw [hlog, hclog, hfields.2.2.2.2.2.2.2.2, hcae, hAE]
        show (w.log ++ [(l, joinedLines g.stmts)]) ++ groupsLog w.appendErr rest locs
            = w.log ++ ((match w.appendErr l with
                | some _ => []
                | none => [(l, joinedLines g.stmts)]) ++ groupsLog w.appendErr rest locs)
        rw [happ', List.append_assoc]

/-- Claim C5 (amended): with no injected path-resolution failures, free
locks, and every statement resolving to a valid date, appendStatements
partitions the statements by calendar date key (the groups' statements
are a permutation of the input and every statement sits in the group of
its own date key), performs exactly one combined append per group whose
content is the group's lines joined by newline with a trailing newline
(the log gains exactly one entry per successful group), and isolates
write failures per group: failed groups' statements are counted in
`failed` with one `dateKey: message` error entry each, the others still
succeed, `total` is the number of input statements and
`success + failed = total`.  (An unparsable timestamp or an injected
resolution failure instead rejects the whole call — see the
counterexample.) -/
theorem c5_batch_partition_and_isolation (w : World) (stmts : List Js)
    (hrd : ∀ dir, w.readdirErr dir = none) (hst : ∀ l, w.statErr l = none)
    (hlk : w.locks = [])
    (hvalid : ∀ s ∈ stmts, (resolveDate w s).isSome = true) :
    ∃ groups, buildGroups w stmts [] = .ok groups ∧
      List.Perm (concatMap Group.stmts groups) stmts ∧
      (∀ g ∈ groups, ∀ x ∈ g.stmts, ∃ u, resolveDate w x = some u ∧ isoDateKey u = g.key) ∧
      ∃ w' res locs, appendStatements w stmts = .ok w' res ∧
        locs.length = groups.length ∧
        res.total = stmts.length ∧
        res.success = groupsSuccCount w.appendErr groups locs ∧
        res.failed = groupsFailCount w.appendErr groups locs ∧
        res.success + res.failed = stmts.length ∧
        res.errors = groupsErrors w.appendErr groups locs ∧
        w'.log = w.log ++ groupsLog w.appendErr groups locs := by
  obtain ⟨groups, hbg, hperm, hkey⟩ := buildGroups_spec w stmts [] hvalid
  have hperm' : List.Perm (concatMap Group.stmts groups) stmts := by
    simpa [concatMap] using hperm
  have hkey' := hkey (by intro g hg; exact absurd hg (List.not_mem_nil g))
  obtain ⟨w', res, locs, hwg, hlen, htot, hlk', hsucc, hfail, herr, hlog⟩ :=
    writeGroups_spec groups w ⟨stmts.length, 0, 0, []⟩ hrd hst hlk
  have hsucc' : res.success = groupsSuccCount w.appendErr groups locs := by
    rw [hsucc]
    show 0 + groupsSuccCount w.appendErr groups locs = _
    rw [Nat.zero_add]
  have hfail' : res.failed = groupsFailCount w.appendErr groups locs := by
    rw [hfail]
    show 0 + groupsFailCount w.appendErr groups locs = _
    rw [Nat.zero_add]
  refine ⟨groups, hbg, hperm', hkey', w', res, locs, ?_, hlen, htot, hsucc', hfail',
    ?_, ?_, hlog⟩
  · unfold appendStatements
    rw [hbg]
    exact hwg
  · rw [hsucc', hfail']
    have hsplit := groupsCount_split w.appendErr groups locs hlen
    have hl := hperm'.length_eq
    omega
  · rw [herr]
    show [] ++ groupsErrors w.appendErr groups locs = _
    rw [List.nil_append]

set_option maxRecDepth 20000 in
/-- Witness for C5: a one-statement batch in the clean world groups into
one date group and succeeds. -/
theorem c5_witness :
    ∃ groups, buildGroups w0 [recNum] [] = .ok groups ∧
      List.Perm (concatMap Group.stmts groups) [recNum] ∧
      (∀ g ∈ groups, ∀ x ∈ g.stmts, ∃ u, resolveDate w0 x = some u ∧ isoDateKey u = g.key) ∧
      ∃ w' res locs, appendStatements w0 [recNum] = .ok w' res ∧
        locs.length = groups.length ∧
        res.total = [recNum].length ∧
        res.success = groupsSuccCount w0.appendErr groups locs ∧
        res.failed = groupsFailCount w0.appendErr groups locs ∧
        res.success + res.failed = [recNum].length ∧
        res.errors = groupsErrors w0.appendErr groups locs ∧
        w'.log = w0.log ++ groupsLog w0.appendErr groups locs :=
  c5_batch_partition_and_isolation w0 [recNum] (fun _ => rfl) (fun _ => rfl) rfl
    (by intro s hs; rw [List.mem_singleton] at hs; subst hs; rfl)

set_option maxRecDepth 10000 in
/-- Counterexample to C5 as stated: a statement whose timestamp does not
parse makes the whole call reject (the `toISOString` of an Invalid Date
throws during grouping) instead of reporting a failed count. -/
theorem c5_counterexample :
    (appendStatements w0 [Js.obj [(tsKey, Js.str "garbage".toList)]]).isRaised = true := by
  decide

/- ---------------------------------------------------------------------
   Claim C7 — lock serialization of two same-path appends.
   --------------------------------------------------------------------- -/

theorem takePush {α : Type} (l : List α) : ∀ (k : Nat) (h : k < l.length),
    l.take k ++ [l.get ⟨k, h⟩] = l.take (k+1) := by
  induction l with
  | nil => intro k h; simp at h
  | cons x xs ih =>
    intro k h
    cases k with
    | zero => rfl
    | succ n =>
      have hn : n < xs.length := Nat.lt_of_succ_lt_succ h
      show x :: (xs.take n ++ [xs.get ⟨n, hn⟩]) = x :: xs.take (n+1)
      rw [ih n hn]

theorem takeAll {α : Type} (l : List α) : ∀ (k : Nat), ¬ k < l.length → l.take k = l := by
  induction l with
  | nil => intro k h; simp
  | cons x xs ih =>
    intro k h
    cases k with
    | zero => simp at h
    | succ n =>
      show x :: xs.take n = x :: xs
      rw [ih n (by simpa using h)]

theorem lockInv_init (ca cb : List Str) : lockInv ca cb lockInit := by
  refine ⟨rfl, ?_, Or.inl ⟨rfl, rfl, rfl⟩⟩
  simp [lockInit, holding]

theorem lockInv_step (ca cb : List Str) (s s' : LockState)
    (hstep : LockStep ca cb s s') (hinv : lockInv ca cb s) : lockInv ca cb s' := by
  obtain ⟨h1, h2, h3⟩ := hinv
  cases hstep with
  | acqA h hl =>
    have hqB : holding s.pcB = false := by
      rw [h] at h1
      rw [hl] at h1
      simpa [holding] using h1.symm
    rw [h] at h3
    refine ⟨?_, ?_, ?_⟩
    · show true = (holding (TaskPc.write 0) || holding s.pcB)
      rw [hqB]
      rfl
    · show ¬(holding (TaskPc.write 0) = true ∧ holding s.pcB = true)
      rw [hqB]
      simp
    · rcases h3 with ⟨hq, hc, ha⟩ | ⟨-, hc, ha⟩ | ⟨hdone, -, -, -⟩ | ⟨-, hst, -, -⟩
      · left
        refine ⟨hq, ?_, ?_⟩
        · show s.content = writtenOf ca (TaskPc.write 0)
          rw [hc]
          rfl
        · show s.acqLog ++ [true] = (if started (TaskPc.write 0) then [true] else [])
          rw [ha]
          rfl
      · cases hpb : s.pcB with
        | acquire =>
          left
          refine ⟨rfl, ?_, ?_⟩
          · show s.content = writtenOf ca (TaskPc.write 0)
            rw [hc, hpb]
            rfl
          · show s.acqLog ++ [true] = (if started (TaskPc.write 0) then [true] else [])
            rw [ha, hpb]
            rfl
        | write k =>
          rw [hpb] at hqB
          exact absurd hqB (by simp [holding])
        | release =>
          rw [hpb] at hqB
          exact absurd hqB (by simp [holding])
        | done =>
          right; right; right
          refine ⟨rfl, rfl, ?_, ?_⟩
          · show s.content = cb ++ writtenOf ca (TaskPc.write 0)
            rw [hc, hpb]
            simp [writtenOf]
          · show s.acqLog ++ [true] = [false, true]
            rw [ha, hpb]
            rfl
      · exact absurd hdone (by simp)
      · exact absurd hst (by simp [started])
  | wrA k h hk =>
    have hqB : holding s.pcB = false := by
      cases hq : holding s.pcB with
      | false => rfl
      | true => exact absurd ⟨by rw [h]; rfl, hq⟩ h2
    rw [h] at h3
    refine ⟨?_, ?_, ?_⟩
    · show s.locked = (holding (TaskPc.write (k+1)) || holding s.pcB)
      rw [h1, h]
      rfl
    · show ¬(holding (TaskPc.write (k+1)) = true ∧ holding s.pcB = true)
      rw [hqB]
      simp
    · rcases h3 with ⟨hq, hc, ha⟩ | ⟨hq2, -, -⟩ | ⟨hdone, -, -, -⟩ | ⟨hpB, -, hc, ha⟩
      · left
        refine ⟨hq, ?_, ?_⟩
        · show s.content ++ [ca.get ⟨k, hk⟩] = writtenOf ca (TaskPc.write (k+1))
          rw [hc]
          exact takePush ca k hk
        · show s.acqLog = (if started (TaskPc.write (k+1)) then [true] else [])
          rw [ha]
          rfl
      · exact absurd hq2 (by simp [started])
      · exact absurd hdone (by simp)
      · right; right; right
        refine ⟨hpB, rfl, ?_, ha⟩
        show s.content ++ [ca.get ⟨k, hk⟩] = cb ++ writtenOf ca (TaskPc.write (k+1))
        rw [hc, List.append_assoc]
        exact congrArg (fun z => cb ++ z) (takePush ca k hk)
  | wrEndA k h hk =>
    have hqB : holding s.pcB = false := by
      cases hq : holding s.pcB with
      | false => rfl
      | true => exact absurd ⟨by rw [h]; rfl, hq⟩ h2
    rw [h] at h3
    refine ⟨?_, ?_, ?_⟩
    · show s.locked = (holding TaskPc.release || holding s.pcB)
      rw [h1, h]
      rfl
    · show ¬(holding TaskPc.release = true ∧ holding s.pcB = true)
      rw [hqB]
      simp
    · rcases h3 with ⟨hq, hc, ha⟩ | ⟨hq2, -, -⟩ | ⟨hdone, -, -, -⟩ | ⟨hpB, -, hc, ha⟩
      · left
        refine ⟨hq, ?_, ?_⟩
        · show s.content = writtenOf ca TaskPc.release
          rw [hc]
          exact takeAll ca k hk
        · show s.acqLog = (if started TaskPc.release then [true] else [])
          rw [ha]
          rfl
      · exact absurd hq2 (by simp [started])
      · exact absurd hdone (by simp)
      · right; right; right
        refine ⟨hpB, rfl, ?_, ha⟩
        show s.content = cb ++ writtenOf ca TaskPc.release
        rw [hc]
        exact congrArg (fun z => cb ++ z) (takeAll ca k hk)
  | relA h =>
    have hqB : holding s.pcB = false := by
      cases hq : holding s.pcB with
      | false => rfl
      | true => exact absurd ⟨by rw [h]; rfl, hq⟩ h2
    rw [h] at h3
    refine ⟨?_, ?_, ?_⟩
    · show false = (holding TaskPc.done || holding s.pcB)
      rw [hqB]
      rfl
    · show ¬(holding TaskPc.done = true ∧ holding s.pcB = true)
      simp [holding]
    · rcases h3 with ⟨hq, hc, ha⟩ | ⟨hq2, -, -⟩ | ⟨hdone, -, -, -⟩ | ⟨hpB, -, hc, ha⟩
      · left
        refine ⟨hq, ?_, ?_⟩
        · show s.content = writtenOf ca TaskPc.done
          rw [hc]
          rfl
        · show s.acqLog = (if started TaskPc.done then [true] else [])
          rw [ha]
          rfl
      · exact absurd hq2 (by simp [started])
      · exact absurd hdone (by simp)
      · right; right; right
        refine ⟨hpB, rfl, ?_, ha⟩
        show s.content = cb ++ writtenOf ca TaskPc.done
        rw [hc]
        rfl
  | acqB h hl =>
    have hqA : holding s.pcA = false := by
      rw [h] at h1
      rw [hl] at h1
      simpa [holding] using h1.symm
    rw [h] at h3
    refine ⟨?_, ?_, ?_⟩
    · show true = (holding s.pcA || holding (TaskPc.write 0))
      rw [hqA]
      rfl
    · show ¬(holding s.pcA = true ∧ holding (TaskPc.write 0) = true)
      rw [hqA]
      simp
    · rcases h3 with ⟨-, hc, ha⟩ | ⟨hq, hc, ha⟩ | ⟨-, hst, -, -⟩ | ⟨hpB, -, -, -⟩
      · cases hpa : s.pcA with
        | acquire =>
          right; left
          refine ⟨rfl, ?_, ?_⟩
          · show s.content = writtenOf cb (TaskPc.write 0)
            rw [hc, hpa]
            rfl
          · show s.acqLog ++ [false] = (if started (TaskPc.write 0) then [false] else [])
            rw [ha, hpa]
            rfl
        | write k =>
          rw [hpa] at hqA
          exact absurd hqA (by simp [holding])
        | release =>
          rw [hpa] at hqA
          exact absurd hqA (by simp [holding])
        | done =>
          right; right; left
          refine ⟨rfl, rfl, ?_, ?_⟩
          · show s.content = ca ++ writtenOf cb (TaskPc.write 0)
            rw [hc, hpa]
            simp [writtenOf]
          · show s.acqLog ++ [false] = [true, false]
            rw [ha, hpa]
            rfl
      · right; left
        refine ⟨hq, ?_, ?_⟩
        · show s.content = writtenOf cb (TaskPc.write 0)
          rw [hc]
          rfl
        · show s.acqLog ++ [false] = (if started (TaskPc.write 0) then [false] else [])
          rw [ha]
          rfl
      · exact absurd hst (by simp [started])
      · exact absurd hpB (by simp)
  | wrB k h hk =>
    have hqA : holding s.pcA = false := by
      cases hq : holding s.pcA with
      | false => rfl
      | true => exact absurd ⟨hq, by rw [h]; rfl⟩ h2
    rw [h] at h3
    refine ⟨?_, ?_, ?_⟩
    · show s.locked = (holding s.pcA || holding (TaskPc.write (k+1)))
      rw [h1, h]
      rfl
    · show ¬(holding s.pcA = true ∧ holding (TaskPc.write (k+1)) = true)
      rw [hqA]
      simp
    · rcases h3 with ⟨hq, -, -⟩ | ⟨hq, hc, ha⟩ | ⟨hpA, -, hc, ha⟩ | ⟨hpB, -, -, -⟩
      · exact absurd hq (by simp [started])
      · right; left
        refine ⟨hq, ?_, ?_⟩
        · show s.content ++ [cb.get ⟨k, hk⟩] = writtenOf cb (TaskPc.write (k+1))
          rw [hc]
          exact takePush cb k hk
        · show s.acqLog = (if started (TaskPc.write (k+1)) then [false] else [])
          rw [ha]
          rfl
      · right; right; left
        refine ⟨hpA, rfl, ?_, ha⟩
        show s.content ++ [cb.get ⟨k, hk⟩] = ca ++ writtenOf cb (TaskPc.write (k+1))
        rw [hc, List.append_assoc]
        exact congrArg (fun z => ca ++ z) (takePush cb k hk)
      · exact absurd hpB (by simp)
  | wrEndB k h hk =>
    have hqA : holding s.pcA = false := by
      cases hq : holding s.pcA with
      | false => rfl
      | true => exact absurd ⟨hq, by rw [h]; rfl⟩ h2
    rw [h] at h3
    refine ⟨?_, ?_, ?_⟩
    · show s.locked = (holding s.pcA || holding TaskPc.release)
      rw [h1, h]
      rfl
    · show ¬(holding s.pcA = true ∧ holding TaskPc.release = true)
      rw [hqA]
      simp
    · rcases h3 with ⟨hq, -, -⟩ | ⟨hq, hc, ha⟩ | ⟨hpA, -, hc, ha⟩ | ⟨hpB, -, -, -⟩
      · exact absurd hq (by simp [started])
      · right; left
        refine ⟨hq, ?_, ?_⟩
        · show s.content = writtenOf cb TaskPc.release
          rw [hc]
          exact takeAll cb k hk
        · show s.acqLog = (if started TaskPc.release then [false] else [])
          rw [ha]
          rfl
      · right; right; left
        refine ⟨hpA, rfl, ?_, ha⟩
        show s.content = ca ++ writtenOf cb TaskPc.release
        rw [hc]
        exact congrArg (fun z => ca ++ z) (takeAll cb k hk)
      · exact absurd hpB (by simp)
  | relB h =>
    have hqA : holding s.pcA = false := by
      cases hq : holding s.pcA with
      | false => rfl
      | true => exact absurd ⟨hq, by rw [h]; rfl⟩ h2
    rw [h] at h3
    refine ⟨?_, ?_, ?_⟩
    · show false = (holding s.pcA || holding TaskPc.done)
      rw [hqA]
      rfl
    · show ¬(holding s.pcA = true ∧ holding TaskPc.done = true)
      simp [holding]
    · rcases h3 with ⟨hq, -, -⟩ | ⟨hq, hc, ha⟩ | ⟨hpA, -, hc, ha⟩ | ⟨hpB, -, -, -⟩
      · exact absurd hq (by simp [started])
      · right; left
        refine ⟨hq, ?_, ?_⟩
        · show s.content = writtenOf cb TaskPc.done
          rw [hc]
          rfl
        · show s.acqLog = (if started TaskPc.done then [false] else [])
          rw [ha]
          rfl
      · right; right; left
        refine ⟨hpA, rfl, ?_, ha⟩
        show s.content = ca ++ writtenOf cb TaskPc.done
        rw [hc]
        rfl
      · exact absurd hpB (by simp)

theorem lockInv_reach (ca cb : List Str) (s : LockState)
    (h : Relation.ReflTransGen (LockStep ca cb) lockInit s) : lockInv ca cb s := by
  induction h with
  | refl => exact lockInv_init ca cb
  | tail hsteps hstep ih => exact lockInv_step ca cb _ _ hstep ih

/-- Claim C7: in every interleaved execution of two append tasks on the
same shard path, once both tasks completed, the shard content is the
interleaving-free concatenation of the two complete chunk lists, in the
order recorded by lock acquisition: the first acquirer's bytes are all
before the second's, so no bytes of the two appends interleave. -/
theorem c7_lock_serializes (ca cb : List Str) (s : LockState)
    (hreach : Relation.ReflTransGen (LockStep ca cb) lockInit s)
    (hA : s.pcA = .done) (hB : s.pcB = .done) :
    (s.acqLog = [true, false] ∧ s.content = ca ++ cb) ∨
    (s.acqLog = [false, true] ∧ s.content = cb ++ ca) := by
  obtain ⟨-, -, h3⟩ := lockInv_reach ca cb s hreach
  rw [hA, hB] at h3
  rcases h3 with ⟨hf, -, -⟩ | ⟨hf, -, -⟩ | ⟨-, -, hc, ha⟩ | ⟨-, -, hc, ha⟩
  · exact absurd hf (by simp [started])
  · exact absurd hf (by simp [started])
  · exact Or.inl ⟨ha, by rw [hc]; rfl⟩
  · exact Or.inr ⟨ha, by rw [hc]; rfl⟩

/-- Witness for C7: the run in which task A acquires first, writes its
chunk, releases, then task B does the same, ends serialized with
content ca ++ cb. -/
theorem c7_witness :
    ∃ s : LockState,
      Relation.ReflTransGen (LockStep ["x".toList] ["y".toList]) lockInit s ∧
      ((s.acqLog = [true, false] ∧ s.content = ["x".toList] ++ ["y".toList]) ∨
       (s.acqLog = [false, true] ∧ s.content = ["y".toList] ++ ["x".toList])) := by
  have hchain : Relation.ReflTransGen (LockStep ["x".toList] ["y".toList]) lockInit
      ⟨false, ["x".toList, "y".toList], [true, false], .done, .done⟩ :=
    Relation.ReflTransGen.head (LockStep.acqA _ rfl rfl)
      (Relation.ReflTransGen.head (LockStep.wrA _ 0 rfl (by decide))
        (Relation.ReflTransGen.head (LockStep.wrEndA _ 1 rfl (by decide))
          (Relation.ReflTransGen.head (LockStep.relA _ rfl)
            (Relation.ReflTransGen.head (LockStep.acqB _ rfl rfl)
              (Relation.ReflTransGen.head (LockStep.wrB _ 0 rfl (by decide))
                (Relation.ReflTransGen.head (LockStep.wrEndB _ 1 rfl (by decide))
                  (Relation.ReflTransGen.head (LockStep.relB _ rfl)
                    Relation.ReflTransGen.refl)))))))
  exact ⟨_, hchain, c7_lock_serializes _ _ _ hchain rfl rfl⟩

/- ---------------------------------------------------------------------
   Claim C2 — append/scan round trip.  Counting infrastructure first.
   --------------------------------------------------------------------- -/

theorem concatMap_congr {α β : Type} (f g : α → List β) : ∀ (l : List α),
    (∀ a ∈ l, f a = g a) → concatMap f l = concatMap g l := by
  intro l
  induction l with
  | nil => intro _; rfl
  | cons x xs ih =>
    intro h
    show f x ++ concatMap f xs = g x ++ concatMap g xs
    rw [h x (List.mem_cons_self _ _), ih (fun a ha => h a (List.mem_cons_of_mem _ ha))]

theorem sum_map_add {α : Type} (g h : α → Nat) (M : List α) :
    (M.map (fun f => g f + h f)).sum = (M.map g).sum + (M.map h).sum := by
  induction M with
  | nil => rfl
  | cons x xs ih =>
    simp only [List.map_cons, List.sum_cons, ih]
    omega

theorem sum_ite_not_mem_gen {α : Type} [DecidableEq α] (xs : List α) (a : α) (h : a ∉ xs) :
    (xs.map (fun x => if x = a then (1:Nat) else 0)).sum = 0 := by
  induction xs with
  | nil => rfl
  | cons x rest ih =>
    have hd : ¬ x = a := fun hh => h (hh ▸ List.mem_cons_self x rest)
    rw [List.map_cons, List.sum_cons, if_neg hd,
      ih (fun hm => h (List.mem_cons_of_mem x hm))]

theorem sum_ite_mem_gen {α : Type} [DecidableEq α] (xs : List α) (a : α)
    (hmem : a ∈ xs) (hnd : xs.Nodup) :
    (xs.map (fun x => if x = a then (1:Nat) else 0)).sum = 1 := by
  induction xs with
  | nil => exact absurd hmem (List.not_mem_nil a)
  | cons x rest ih =>
    rw [List.nodup_cons] at hnd
    rcases List.mem_cons.1 hmem with rfl | hm
    · rw [List.map_cons, List.sum_cons, if_pos rfl, sum_ite_not_mem_gen rest _ hnd.1]
    · have hd : ¬ x = a := fun hh => hnd.1 (hh ▸ hm)
      rw [List.map_cons, List.sum_cons, if_neg hd, ih hm hnd.2]

theorem countOcc_single (r : Js) : countOcc r [r] = 1 := by
  show (if Js.beq r r then 1 else 0) + countOcc r [] = 1
  rw [if_pos (Js.beq_refl r)]
  rfl

theorem stripFront_some : ∀ (a st rest : Str), stripFront a st = some rest →
    st = a ++ rest := by
  intro a
  induction a with
  | nil =>
    intro st rest h
    have : some st = some rest := h
    rw [(Option.some.injEq _ _).mp this]
    rfl
  | cons c cs ih =>
    intro st rest h
    cases st with
    | nil => exact Option.noConfusion h
    | cons x xs =>
      have h' : (if c = x then stripFront cs xs else none) = some rest := h
      by_cases hcx : c = x
      · rw [if_pos hcx] at h'
        show x :: xs = c :: (cs ++ rest)
        rw [hcx, ih xs rest h']
      · rw [if_neg hcx] at h'
        exact Option.noConfusion h'

theorem stripFront_append_ne : ∀ (a b : Str), a.length = b.length → a ≠ b →
    ∀ rest, stripFront a (b ++ rest) = none := by
  intro a
  induction a with
  | nil =>
    intro b h hne rest
    cases b with
    | nil => exact absurd rfl hne
    | cons y ys => exact absurd h (by simp)
  | cons x xs ih =>
    intro b h hne rest
    cases b with
    | nil => exact absurd h (by simp)
    | cons y ys =>
      show stripFront (x :: xs) (y :: (ys ++ rest)) = none
      unfold stripFront
      by_cases hxy : x = y
      · rw [if_pos hxy]
        exact ih ys (by simpa using h) (fun hh => hne (by rw [hxy, hh])) rest
      · rw [if_neg hxy]

theorem matchShard_isSome_strip (base name : Str)
    (h : (matchShard base name).isSome = true) :
    ∃ rest, stripFront base name = some rest := by
  unfold matchShard at h
  cases hs : stripFront base name with
  | none =>
    rw [hs] at h
    exact absurd h (by simp)
  | some rest => exact ⟨rest, rfl⟩

theorem matchShard_ne_base (a b rest : Str) (hlen : a.length = b.length) (hne : a ≠ b) :
    matchShard a (b ++ rest) = none := by
  unfold matchShard
  rw [stripFront_append_ne a b hlen hne rest]

theorem baseOfDay_len (d : Int) : (baseOfDay d).length = 2 := by
  have hb := civil_month_day_bounds d
  exact padNum_two_len _ hb.2.2.1 (by omega)

theorem baseOfDay_ne (d1 d2 : Int) (w : World) (hne : d1 ≠ d2)
    (hdir : dirOfDay w d1 = dirOfDay w d2) : baseOfDay d1 ≠ baseOfDay d2 :=
  fun hb => hne (dirOfDay_baseOfDay_inj w d1 d2 hdir hb)

theorem scanDay_ok_eq (w : World) (s endMs d : Int)
    (hrd : w.readdirErr (dirOfDay w d) = none) :
    exceptList (scanDay w s endMs d)
      = if dirExistsB w (dirOfDay w d) = true
        then concatMap
          (fun f => (readStatements w ⟨dirOfDay w d, f⟩).filter (emitFilter s endMs))
          (sortStrs ((readdirNames w (dirOfDay w d)).filter
            (fun f => (matchShard (baseOfDay d) f).isSome)))
        else [] := by
  unfold scanDay
  by_cases hex : dirExistsB w (dirOfDay w d) = true
  · rw [if_pos hex, hrd, if_pos hex]
    rfl
  · rw [if_neg hex, if_neg hex]
    rfl

theorem scanDay_congr (w1 w2 : World) (s endMs d : Int)
    (hbase : w1.baseDir = w2.baseDir)
    (hex : dirExistsB w1 (dirOfDay w2 d) = dirExistsB w2 (dirOfDay w2 d))
    (hrd1 : w1.readdirErr (dirOfDay w2 d) = none)
    (hrd2 : w2.readdirErr (dirOfDay w2 d) = none)
    (hmatching : (readdirNames w1 (dirOfDay w2 d)).filter
        (fun f => (matchShard (baseOfDay d) f).isSome)
      = (readdirNames w2 (dirOfDay w2 d)).filter
        (fun f => (matchShard (baseOfDay d) f).isSome))
    (hfiles : ∀ f, (matchShard (baseOfDay d) f).isSome = true →
      fsGet w1 ⟨dirOfDay w2 d, f⟩ = fsGet w2 ⟨dirOfDay w2 d, f⟩) :
    scanDay w1 s endMs d = scanDay w2 s endMs d := by
  unfold scanDay
  dsimp only
  rw [dirOfDay_congr w1 w2 d hbase, hex]
  by_cases he : dirExistsB w2 (dirOfDay w2 d) = true
  · rw [if_pos he, if_pos he, hrd1, hrd2]
    dsimp only
    rw [hmatching]
    have hcc := concatMap_congr
      (fun f => (readStatements w1 ⟨dirOfDay w2 d, f⟩).filter (emitFilter s endMs))
      (fun f => (readStatements w2 ⟨dirOfDay w2 d, f⟩).filter (emitFilter s endMs))
      (sortStrs ((readdirNames w2 (dirOfDay w2 d)).filter
        (fun f => (matchShard (baseOfDay d) f).isSome)))
      (by
        intro f hf
        dsimp only
        rw [mem_sortStrs] at hf
        obtain ⟨-, hpat⟩ := List.mem_filter.1 hf
        unfold readStatements
        rw [hfiles f hpat])
    rw [hcc]
  · rw [if_neg he, if_neg he]

theorem c2_count_part (w : World) (r : Js) (l : Loc) (ts s e : Int)
    (hrd : ∀ dir, w.readdirErr dir = none)
    (hkeys : (w.fs.map Prod.fst).Nodup)
    (hmatch : (matchShard (baseOfDay (epochDay ts)) l.name).isSome = true)
    (hend : endsWithNl ((fsGet w l).getD []) = true)
    (hparse : jsonParse (stringify r) = some r) (htr : truthy r = true)
    (hnl : '\n' ∉ stringify r) (hws : hasNonWs (stringify r) = true)
    (hemit : emitFilter s (endOfDayMs e) r = true)
    (hs : epochDay s ≤ epochDay ts) (he : epochDay ts ≤ epochDay e)
    (hldir : l.dir = dirOfDay w (epochDay ts))
    {W : World}
    (hbase : W.baseDir = w.baseDir)
    (hrd' : ∀ dir, W.readdirErr dir = none)
    (hDo : ∀ d, dirOfDay W d = dirOfDay w d)
    (hWget_self : fsGet W l = some ((fsGet w l).getD [] ++ (stringify r ++ ['\n'])))
    (hWget_other : ∀ k, k ≠ l → fsGet W k = fsGet w k)
    (hexMono : ∀ D, dirExistsB w D = true → dirExistsB W D = true)
    (hdirEx_ne : ∀ D, D ≠ dirOfDay w (epochDay ts) → dirExistsB W D = dirExistsB w D)
    (hpack : (∃ c, fsGet w l = some c ∧ (∀ dir, readdirNames W dir = readdirNames w dir))
        ∨ (fsGet w l = none ∧ ∀ dir, readdirNames W dir = readdirNames w dir
            ++ (if l.dir = dir then [l.name] else [])))
    (hnames_ne : ∀ D, D ≠ l.dir → readdirNames W D = readdirNames w D) :
    countOcc r (exceptList (readStatementsInRange W (some s) (some e)))
      = countOcc r (exceptList (readStatementsInRange w (some s) (some e))) + 1 := by
  have hdays : ∀ d ∈ dayList (epochDay s) (epochDay e),
      countOcc r (exceptList (scanDay W s (endOfDayMs e) d))
        = countOcc r (exceptList (scanDay w s (endOfDayMs e) d))
          + (if d = epochDay ts then 1 else 0) := by
    intro d hd
    by_cases hdr : d = epochDay ts
    · rw [if_pos hdr]
      rw [hdr]
      rw [scanDay_ok_eq W s (endOfDayMs e) (epochDay ts) (hrd' _),
        scanDay_ok_eq w s (endOfDayMs e) (epochDay ts) (hrd _), hDo (epochDay ts)]
      rcases hpack with ⟨c, hfl, hnames⟩ | ⟨hfl, hnames⟩
      · -- the shard file already exists: its content grows by one line
        have hmemN : l.name ∈ readdirNames w (dirOfDay w (epochDay ts)) := by
          have hm := mem_readdirNames_of_fsGet_some w l c hfl
          rw [hldir] at hm
          exact hm
        have hexw : dirExistsB w (dirOfDay w (epochDay ts)) = true :=
          dirExistsB_of_mem_readdirNames w _ _ hmemN
        rw [if_pos (hexMono _ hexw), if_pos hexw, hnames]
        rw [countOcc_concatMap, countOcc_concatMap]
        have hps1 := ((sortStrs_perm ((readdirNames w (dirOfDay w (epochDay ts))).filter
            (fun f => (matchShard (baseOfDay (epochDay ts)) f).isSome))).map
          (fun f => countOcc r ((readStatements W
            ⟨dirOfDay w (epochDay ts), f⟩).filter (emitFilter s (endOfDayMs e))))).sum_eq
        have hps2 := ((sortStrs_perm ((readdirNames w (dirOfDay w (epochDay ts))).filter
            (fun f => (matchShard (baseOfDay (epochDay ts)) f).isSome))).map
          (fun f => countOcc r ((readStatements w
            ⟨dirOfDay w (epochDay ts), f⟩).filter (emitFilter s (endOfDayMs e))))).sum_eq
        rw [hps1, hps2]
        have hpoint : ∀ f ∈ (readdirNames w (dirOfDay w (epochDay ts))).filter
            (fun f => (matchShard (baseOfDay (epochDay ts)) f).isSome),
            countOcc r ((readStatements W ⟨dirOfDay w (epochDay ts), f⟩).filter
              (emitFilter s (endOfDayMs e)))
              = countOcc r ((readStatements w ⟨dirOfDay w (epochDay ts), f⟩).filter
                (emitFilter s (endOfDayMs e)))
                + (if f = l.name then 1 else 0) := by
          intro f hf
          by_cases hfn : f = l.name
          · subst hfn
            rw [if_pos rfl]
            have hKl : (⟨dirOfDay w (epochDay ts), l.name⟩ : Loc) = l := by
              rw [← hldir]
            rw [hKl]
            have hself : fsGet W l = some (c ++ (stringify r ++ ['\n'])) := by
              rw [hWget_self, hfl]
              rfl
            have hrs1 : readStatements W l
                = parsedRecords (c ++ (stringify r ++ ['\n'])) := by
              unfold readStatements
              rw [hself]
            have hrs2 : readStatements w l = parsedRecords c := by
              unfold readStatements
              rw [hfl]
            have hendc : endsWithNl c = true := by
              have hh := hend
              rw [hfl] at hh
              exact hh
            rw [hrs1, hrs2, parsedRecords_append c _ hendc,
              parsedRecords_line r hnl hws hparse htr, List.filter_append,
              countOcc_append]
            have hfr : ([r].filter (emitFilter s (endOfDayMs e))) = [r] := by
              rw [List.filter_cons, if_pos hemit]
              rfl
            rw [hfr, countOcc_single]
          · rw [if_neg hfn, Nat.add_zero]
            have hKnl : (⟨dirOfDay w (epochDay ts), f⟩ : Loc) ≠ l := by
              intro hh
              exact hfn (congrArg Loc.name hh)
            unfold readStatements
            rw [hWget_other _ hKnl]
        rw [List.map_congr_left hpoint, sum_map_add
          (fun f => countOcc r ((readStatements w ⟨dirOfDay w (epochDay ts), f⟩).filter
            (emitFilter s (endOfDayMs e))))
          (fun f => if f = l.name then (1:Nat) else 0)]
        rw [sum_ite_mem_gen _ l.name
          (List.mem_filter.2 ⟨hmemN, hmatch⟩)
          (List.Nodup.filter _ (readdirNames_nodup w _ hkeys))]
      · -- the shard file is created by the append
        have hself : fsGet W l = some (stringify r ++ ['\n']) := by
          rw [hWget_self, hfl]
          rfl
        have hexW : dirExistsB W (dirOfDay w (epochDay ts)) = true := by
          have hm := mem_readdirNames_of_fsGet_some W l _ hself
          have hm2 : l.name ∈ readdirNames W (dirOfDay w (epochDay ts)) := by
            rw [← hldir]
            exact hm
          exact dirExistsB_of_mem_readdirNames W _ _ hm2
        rw [if_pos hexW, hnames (dirOfDay w (epochDay ts)), if_pos hldir, List.filter_append]
        have hfl2 : ([l.name].filter
            (fun f => (matchShard (baseOfDay (epochDay ts)) f).isSome)) = [l.name] := by
          rw [List.filter_cons, if_pos hmatch]
          rfl
        rw [hfl2, countOcc_concatMap]
        have hps1 := ((sortStrs_perm (((readdirNames w (dirOfDay w (epochDay ts))).filter
            (fun f => (matchShard (baseOfDay (epochDay ts)) f).isSome)) ++ [l.name])).map
          (fun f => countOcc r ((readStatements W ⟨dirOfDay w (epochDay ts), f⟩).filter
            (emitFilter s (endOfDayMs e))))).sum_eq
        rw [hps1, List.map_append, List.sum_append]
        simp only [List.map_cons, List.map_nil, List.sum_cons, List.sum_nil]
        have hnewc : countOcc r ((readStatements W
            ⟨dirOfDay w (epochDay ts), l.name⟩).filter (emitFilter s (endOfDayMs e))) = 1 := by
          have hKl : (⟨dirOfDay w (epochDay ts), l.name⟩ : Loc) = l := by
            rw [← hldir]
          rw [hKl]
          unfold readStatements
          rw [hself]
          show countOcc r ((parsedRecords (stringify r ++ ['\n'])).filter
            (emitFilter s (endOfDayMs e))) = 1
          rw [parsedRecords_line r hnl hws hparse htr]
          have hfr : ([r].filter (emitFilter s (endOfDayMs e))) = [r] := by
            rw [List.filter_cons, if_pos hemit]
            rfl
          rw [hfr, countOcc_single]
        rw [hnewc]
        have hnotmem : l.name ∉ readdirNames w (dirOfDay w (epochDay ts)) := by
          have hm := name_not_mem_of_fsGet_none w l hfl
          rw [hldir] at hm
          exact hm
        have hpoint : ∀ f ∈ (readdirNames w (dirOfDay w (epochDay ts))).filter
            (fun f => (matchShard (baseOfDay (epochDay ts)) f).isSome),
            countOcc r ((readStatements W ⟨dirOfDay w (epochDay ts), f⟩).filter
              (emitFilter s (endOfDayMs e)))
              = countOcc r ((readStatements w ⟨dirOfDay w (epochDay ts), f⟩).filter
                (emitFilter s (endOfDayMs e))) := by
          intro f hf
          obtain ⟨hfN, -⟩ := List.mem_filter.1 hf
          have hKnl : (⟨dirOfDay w (epochDay ts), f⟩ : Loc) ≠ l := by
            intro hh
            exact hnotmem ((congrArg Loc.name hh) ▸ hfN)
          unfold readStatements
          rw [hWget_other _ hKnl]
        rw [List.map_congr_left hpoint]
        by_cases hexw : dirExistsB w (dirOfDay w (epochDay ts)) = true
        · rw [if_pos hexw, countOcc_concatMap]
          have hps2 := ((sortStrs_perm ((readdirNames w (dirOfDay w (epochDay ts))).filter
              (fun f => (matchShard (baseOfDay (epochDay ts)) f).isSome))).map
            (fun f => countOcc r ((readStatements w ⟨dirOfDay w (epochDay ts), f⟩).filter
              (emitFilter s (endOfDayMs e))))).sum_eq
          rw [hps2]
          omega
        · have hexw2 : dirExistsB w (dirOfDay w (epochDay ts)) = false := by
            cases hx : dirExistsB w (dirOfDay w (epochDay ts))
            · rfl
            · exact absurd hx hexw
          rw [if_neg hexw, readdirNames_nil_of_not_exists w _ hexw2]
          rfl
    · rw [if_neg hdr, Nat.add_zero]
      by_cases hdd : dirOfDay w d = dirOfDay w (epochDay ts)
      · -- same calendar directory, different shard base
        obtain ⟨rest, hstrip⟩ := matchShard_isSome_strip _ _ hmatch
        have hlname : l.name = baseOfDay (epochDay ts) ++ rest :=
          stripFront_some _ _ _ hstrip
        have hnomatch : matchShard (baseOfDay d) l.name = none := by
          rw [hlname]
          exact matchShard_ne_base _ _ rest (by rw [baseOfDay_len, baseOfDay_len])
            (baseOfDay_ne d (epochDay ts) w hdr hdd)
        have hmatchfil : (readdirNames W (dirOfDay w d)).filter
            (fun f => (matchShard (baseOfDay d) f).isSome)
          = (readdirNames w (dirOfDay w d)).filter
            (fun f => (matchShard (baseOfDay d) f).isSome) := by
          rcases hpack with ⟨c, -, h⟩ | ⟨-, h⟩
          · rw [h]
          · rw [h, List.filter_append, if_pos (hldir.trans hdd.symm)]
            have hfl1 : ([l.name].filter
                (fun f => (matchShard (baseOfDay d) f).isSome)) = [] := by
              rw [List.filter_cons]
              rw [hnomatch]
              rfl
            rw [hfl1, List.append_nil]
        have hfile2 : ∀ f, (matchShard (baseOfDay d) f).isSome = true →
            fsGet W ⟨dirOfDay w d, f⟩ = fsGet w ⟨dirOfDay w d, f⟩ := by
          intro f hf
          apply hWget_other
          intro hh
          have hfeq : f = l.name := congrArg Loc.name hh
          rw [hfeq, hnomatch] at hf
          exact absurd hf (by simp)
        rw [scanDay_ok_eq W s (endOfDayMs e) d (hrd' _),
          scanDay_ok_eq w s (endOfDayMs e) d (hrd _), hDo d, hmatchfil]
        have hcc := concatMap_congr
          (fun f => (readStatements W ⟨dirOfDay w d, f⟩).filter
            (emitFilter s (endOfDayMs e)))
          (fun f => (readStatements w ⟨dirOfDay w d, f⟩).filter
            (emitFilter s (endOfDayMs e)))
          (sortStrs ((readdirNames w (dirOfDay w d)).filter
            (fun f => (matchShard (baseOfDay d) f).isSome)))
          (by
            intro f hf
            dsimp only
            rw [mem_sortStrs] at hf
            obtain ⟨-, hpat⟩ := List.mem_filter.1 hf
            unfold readStatements
            rw [hfile2 f hpat])
        rw [hcc]
        by_cases hex2 : dirExistsB w (dirOfDay w d) = true
        · rw [if_pos (hexMono _ hex2), if_pos hex2]
        · have hex2f : dirExistsB w (dirOfDay w d) = false := by
            cases hx : dirExistsB w (dirOfDay w d)
            · rfl
            · exact absurd hx hex2
          have hC : (readdirNames w (dirOfDay w d)).filter
              (fun f => (matchShard (baseOfDay d) f).isSome) = [] := by
            rw [readdirNames_nil_of_not_exists w _ hex2f]
            rfl
          rw [if_neg hex2, hC]
          by_cases hex1 : dirExistsB W (dirOfDay w d) = true
          · rw [if_pos hex1]
            rfl
          · rw [if_neg hex1]
      · -- a different calendar directory: nothing changed there
        rw [scanDay_congr W w s (endOfDayMs e) d hbase
          (hdirEx_ne _ hdd) (hrd' _) (hrd _)
          (by rw [hnames_ne (dirOfDay w d) (fun hh => hdd (hh.trans hldir))])
          (by
            intro f hf
            apply hWget_other
            intro hh
            exact hdd ((congrArg Loc.dir hh).trans hldir))]
  unfold readStatementsInRange
  dsimp only
  rw [scanDays_ok W s (endOfDayMs e) hrd', scanDays_ok w s (endOfDayMs e) hrd]
  have hEL : ∀ x : List Js, exceptList (Except.ok x) = x := fun _ => rfl
  rw [hEL, hEL]
  rw [countOcc_concatMap, countOcc_concatMap]
  rw [List.map_congr_left hdays]
  rw [sum_map_add (fun d => countOcc r (exceptList (scanDay w s (endOfDayMs e) d)))
    (fun d => if d = epochDay ts then (1:Nat) else 0)]
  rw [sum_ite_mem_gen (dayList (epochDay s) (epochDay e)) (epochDay ts)
    ((mem_dayList _ _ _).2 ⟨hs, he⟩) (dayList_nodup _ _)]

/-- Claim C2 (amended): appending a record into a clean backend (no
injected failures, free locks, unique file keys) — via appendStatement
with an explicit date, via appendStatement with the date derived from
the record's own timestamp, or via appendStatements — increments by
exactly one the number of occurrences of that record in any subsequent
scan whose day range covers the record's day, provided the record
JSON-round-trips to itself, its serialized line is newline free and
non-blank, the record passes the scan's timestamp filter, the target
shard's prior content ends with a newline, and the resolved shard
filename matches the 3-digit shard pattern (rotation indexes above 999
escape the pattern — see the counterexample). -/
theorem c2_append_scan_roundtrip (w : World) (r : Js) (l : Loc) (ts s e : Int)
    (hrd : ∀ dir, w.readdirErr dir = none) (hst : ∀ k, w.statErr k = none)
    (hae : ∀ k, w.appendErr k = none) (hlk : w.locks = [])
    (hkeys : (w.fs.map Prod.fst).Nodup)
    (hgw : getWriteFilePath w (some ts)
      = (ensureDir w (getDateDirectory w (some ts)), .ok l))
    (hmatch : (matchShard (baseOfDay (epochDay ts)) l.name).isSome = true)
    (hend : endsWithNl ((fsGet w l).getD []) = true)
    (hparse : jsonParse (stringify r) = some r) (htr : truthy r = true)
    (hnl : '\n' ∉ stringify r) (hws : hasNonWs (stringify r) = true)
    (hemit : emitFilter s (endOfDayMs e) r = true)
    (hs : epochDay s ≤ epochDay ts) (he : epochDay ts ≤ epochDay e) :
    (∃ w' res, appendStatement w r (some (some ts)) = .ok w' res ∧ res.success = true ∧
      countOcc r (exceptList (readStatementsInRange w' (some s) (some e)))
        = countOcc r (exceptList (readStatementsInRange w (some s) (some e))) + 1) ∧
    (resolveDate w r = some ts →
      (∃ w' res, appendStatement w r none = .ok w' res ∧ res.success = true ∧
        countOcc r (exceptList (readStatementsInRange w' (some s) (some e)))
          = countOcc r (exceptList (readStatementsInRange w (some s) (some e))) + 1) ∧
      (∃ w' res, appendStatements w [r] = .ok w' res ∧
        res.total = 1 ∧ res.success = 1 ∧ res.failed = 0 ∧ res.errors = [] ∧
        countOcc r (exceptList (readStatementsInRange w' (some s) (some e)))
          = countOcc r (exceptList (readStatementsInRange w (some s) (some e))) + 1)) := by
  have hE := ensureDir_fields w (getDateDirectory w (some ts))
  have hldir : l.dir = dirOfDay w (epochDay ts) := by
    obtain ⟨lz, hgwz, hdirz⟩ := getWriteFilePath_no_err w (some ts) hrd hst
    rw [hgw] at hgwz
    have h2 : Except.ok (ε := Str) l = Except.ok lz := congrArg Prod.snd hgwz
    have h3 : l = lz := by injection h2
    rw [h3]
    exact hdirz
  have happE : (ensureDir w (getDateDirectory w (some ts))).appendErr l = none := by
    rw [hE.2.2.2.2.2.2.2.1]
    exact hae l
  have happ1 : appendStatement w r (some (some ts))
      = .ok (releaseLock (appendData { ensureDir w (getDateDirectory w (some ts)) with
          locks := l :: (ensureDir w (getDateDirectory w (some ts))).locks } l
          (stringify r ++ ['\n'])) l) ⟨l, true, none⟩ := by
    unfold appendStatement
    dsimp only
    rw [hgw]
    dsimp only
    rw [if_neg (by rw [hE.2.2.2.2.1, hlk]; exact List.not_mem_nil l)]
    rw [happE]
  have hcount : countOcc r (exceptList (readStatementsInRange
      (releaseLock (appendData { ensureDir w (getDateDirectory w (some ts)) with
        locks := l :: (ensureDir w (getDateDirectory w (some ts))).locks } l
        (stringify r ++ ['\n'])) l) (some s) (some e)))
      = countOcc r (exceptList (readStatementsInRange w (some s) (some e))) + 1 := by
    set W := releaseLock (appendData { ensureDir w (getDateDirectory w (some ts)) with
        locks := l :: (ensureDir w (getDateDirectory w (some ts))).locks } l
        (stringify r ++ ['\n'])) l with hWdef
    have hbase : W.baseDir = w.baseDir := hE.1
    have hrd' : ∀ dir, W.readdirErr dir = none := by
      intro dir
      have hwr : W.readdirErr = w.readdirErr := hE.2.2.2.2.2.1
      rw [hwr]
      exact hrd dir
    have hXfs : ({ ensureDir w (getDateDirectory w (some ts)) with
        locks := l :: (ensureDir w (getDateDirectory w (some ts))).locks } : World).fs
        = w.fs := hE.2.2.2.1
    have hWfs : W.fs = fsAppendEntry w.fs l (stringify r ++ ['\n']) := by
      show fsAppendEntry ({ ensureDir w (getDateDirectory w (some ts)) with
          locks := l :: (ensureDir w (getDateDirectory w (some ts))).locks } : World).fs l
          (stringify r ++ ['\n']) = _
      rw [hXfs]
    have hWdirs : W.dirs = (ensureDir w (getDateDirectory w (some ts))).dirs := rfl
    have hDo : ∀ d, dirOfDay W d = dirOfDay w d := fun d => dirOfDay_congr W w d hbase
    have hWget_self : fsGet W l
        = some ((fsGet w l).getD [] ++ (stringify r ++ ['\n'])) := by
      have h1 : fsGet W l = fsGet (appendData { ensureDir w (getDateDirectory w (some ts)) with
          locks := l :: (ensureDir w (getDateDirectory w (some ts))).locks } l
          (stringify r ++ ['\n'])) l := fsGet_congr _ _ l rfl
      rw [h1, fsGet_appendData_self, fsGet_congr _ w l hXfs]
    have hWget_other : ∀ k, k ≠ l → fsGet W k = fsGet w k := by
      intro k hk
      have h1 : fsGet W k = fsGet (appendData { ensureDir w (getDateDirectory w (some ts)) with
          locks := l :: (ensureDir w (getDateDirectory w (some ts))).locks } l
          (stringify r ++ ['\n'])) k := fsGet_congr _ _ k rfl
      rw [h1, fsGet_appendData_other _ _ _ _ hk, fsGet_congr _ w k hXfs]
    have hEcont : ∀ D, w.dirs.contains D = true →
        (ensureDir w (getDateDirectory w (some ts))).dirs.contains D = true := by
      intro D h
      unfold ensureDir
      split
      · exact h
      · show (getDateDirectory w (some ts) :: w.dirs).contains D = true
        have hmem : D ∈ w.dirs := by simpa using h
        simp [hmem]
    have hexMono : ∀ D, dirExistsB w D = true → dirExistsB W D = true := by
      intro D h
      unfold dirExistsB at h ⊢
      rw [hWfs, hWdirs, fsAppendEntry_any_dir]
      rcases Bool.or_eq_true_iff.mp h with h1 | h2
      · rw [hEcont D h1]
        rfl
      · rw [h2]
        cases (ensureDir w (getDateDirectory w (some ts))).dirs.contains D <;> rfl
    have hdirEx_ne : ∀ D, D ≠ dirOfDay w (epochDay ts) →
        dirExistsB W D = dirExistsB w D := by
      intro D hD
      unfold dirExistsB
      rw [hWfs, hWdirs, fsAppendEntry_any_dir]
      have hlD : (l.dir == D) = false := by
        rw [hldir]
        exact beq_eq_false_iff_ne.mpr (fun hh => hD hh.symm)
      rw [hlD, Bool.or_false]
      have hEdirs : (ensureDir w (getDateDirectory w (some ts))).dirs.contains D
          = w.dirs.contains D := by
        unfold ensureDir
        split
        · rfl
        · show (getDateDirectory w (some ts) :: w.dirs).contains D = w.dirs.contains D
          rw [List.contains_cons]
          have hDne : (D == getDateDirectory w (some ts)) = false :=
            beq_eq_false_iff_ne.mpr (fun hh => hD hh)
          rw [hDne, Bool.false_or]
      rw [hEdirs]
    have hpack : (∃ c, fsGet w l = some c ∧
          (∀ dir, readdirNames W dir = readdirNames w dir)) ∨
        (fsGet w l = none ∧ ∀ dir, readdirNames W dir = readdirNames w dir
            ++ (if l.dir = dir then [l.name] else [])) := by
      cases hfl : fsGet w l with
      | some c =>
        left
        refine ⟨c, rfl, ?_⟩
        intro dir
        have h1 : readdirNames W dir
            = readdirNames (appendData { ensureDir w (getDateDirectory w (some ts)) with
                locks := l :: (ensureDir w (getDateDirectory w (some ts))).locks } l
                (stringify r ++ ['\n'])) dir := readdirNames_congr _ _ dir rfl
        have h2 : fsGet ({ ensureDir w (getDateDirectory w (some ts)) with
            locks := l :: (ensureDir w (getDateDirectory w (some ts))).locks } : World) l
            = some c := by rw [fsGet_congr _ w l hXfs]; exact hfl
        rw [h1, readdirNames_appendData_present _ l _ (by rw [h2]; rfl) dir,
          readdirNames_congr _ w dir hXfs]
      | none =>
        right
        refine ⟨rfl, ?_⟩
        intro dir
        have h1 : readdirNames W dir
            = readdirNames (appendData { ensureDir w (getDateDirectory w (some ts)) with
                locks := l :: (ensureDir w (getDateDirectory w (some ts))).locks } l
                (stringify r ++ ['\n'])) dir := readdirNames_congr _ _ dir rfl
        have h2 : fsGet ({ ensureDir w (getDateDirectory w (some ts)) with
            locks := l :: (ensureDir w (getDateDirectory w (some ts))).locks } : World) l
            = none := by rw [fsGet_congr _ w l hXfs]; exact hfl
        rw [h1, readdirNames_appendData_absent _ l _ h2 dir,
          readdirNames_congr _ w dir hXfs]
    have hnames_ne : ∀ D, D ≠ l.dir → readdirNames W D = readdirNames w D := by
      intro D hD
      rcases hpack with ⟨c, -, h⟩ | ⟨-, h⟩
      · exact h D
      · rw [h D, if_neg (fun hh => hD hh.symm), List.append_nil]
    exact c2_count_part w r l ts s e hrd hkeys hmatch hend hparse htr hnl hws hemit
      hs he hldir hbase hrd' hDo hWget_self hWget_other hexMono hdirEx_ne hpack hnames_ne
  refine ⟨⟨_, _, happ1, rfl, hcount⟩, ?_⟩
  intro hres
  constructor
  · have heq : appendStatement w r none = appendStatement w r (some (some ts)) := by
      have h0 : appendStatement w r none
          = appendStatement w r (some (resolveDate w r)) := rfl
      rw [h0, hres]
    exact ⟨_, _, heq.trans happ1, rfl, hcount⟩
  · have hbg : buildGroups w [r] [] = .ok [⟨isoDateKey ts, some ts, [r]⟩] := by
      rw [buildGroups_cons_eq, hres]
      rfl
    have hjl : joinedLines [r] = stringify r ++ ['\n'] := rfl
    have hwg : appendStatements w [r]
        = .ok (releaseLock (appendData { ensureDir w (getDateDirectory w (some ts)) with
            locks := l :: (ensureDir w (getDateDirectory w (some ts))).locks } l
            (stringify r ++ ['\n'])) l) ⟨1, 1, 0, []⟩ := by
      unfold appendStatements
      rw [hbg]
      dsimp only
      unfold writeGroups
      dsimp only
      rw [hgw]
      dsimp only
      rw [if_neg (by rw [hE.2.2.2.2.1, hlk]; exact List.not_mem_nil l)]
      rw [happE]
      rw [hjl]
      rfl
    exact ⟨_, _, hwg, rfl, rfl, rfl, rfl, hcount⟩

set_option maxRecDepth 20000 in
/-- Witness for C2: appending the day-0 record into the clean world —
directly, with its derived date, and as a one-statement batch — and
scanning its day yields it exactly once more than before. -/
theorem c2_witness :
    (∃ w' res, appendStatement w0 recNum (some (some 10)) = .ok w' res ∧
      res.success = true ∧
      countOcc recNum (exceptList (readStatementsInRange w' (some 0) (some 10)))
        = countOcc recNum (exceptList (readStatementsInRange w0 (some 0) (some 10))) + 1) ∧
    (∃ w' res, appendStatement w0 recNum none = .ok w' res ∧ res.success = true ∧
      countOcc recNum (exceptList (readStatementsInRange w' (some 0) (some 10)))
        = countOcc recNum (exceptList (readStatementsInRange w0 (some 0) (some 10))) + 1) ∧
    (∃ w' res, appendStatements w0 [recNum] = .ok w' res ∧
      res.total = 1 ∧ res.success = 1 ∧ res.failed = 0 ∧ res.errors = [] ∧
      countOcc recNum (exceptList (readStatementsInRange w' (some 0) (some 10)))
        = countOcc recNum (exceptList (readStatementsInRange w0 (some 0) (some 10))) + 1) := by
  have h := c2_append_scan_roundtrip w0 recNum ⟨day0dir, "01.jsonl".toList⟩ 10 0 10
    (fun _ => rfl) (fun _ => rfl) (fun _ => rfl) rfl List.nodup_nil
    rfl (by decide) (by decide) rfl rfl (by decide) rfl (by decide)
    (by decide) (by decide)
  exact ⟨h.1, (h.2 rfl).1, (h.2 rfl).2⟩

set_option maxRecDepth 20000 in
/-- Counterexample to C2 as stated: with shard 01-999.jsonl full, the
append rotates to 01-1000.jsonl, succeeds, yet a scan covering the day
returns the record zero times — the 4-digit suffix escapes the
`(-\d{3})?` shard pattern. -/
theorem c2_counterexample :
    ∃ w' res, appendStatement w999 recNum (some (some 10)) = .ok w' res ∧
      res.success = true ∧
      countOcc recNum (exceptList (readStatementsInRange w' (some 0) (some 10))) = 0 := by
  refine ⟨_, _, rfl, rfl, ?_⟩
  decide

end Telemetry